import Mathlib

/-!
Pulse PWM driver (`06_3/pulse_pwm_driver.c`).

A shallow embedding of the write path and of the load/unload hooks of the
pulse PWM driver.  Machine integers of type `u32` are natural numbers reduced
modulo `2 ^ 32` wherever the C code can wrap.  Calls into the kernel are
recorded, oldest first, in a trace; the answers of the kernel (text parsing,
hardware apply) are parameters of the model.
-/

namespace PulsePwm

/-! ## Constants and data -/

/-- Number of values of the C type `u32`. -/
def U32_MOD : Nat := 4294967296

/-- The constant `PWM_PERIOD` (1000000 ns). -/
def PWM_PERIOD : Nat := 1000000

/-- The constant `PWM_DEFAULT_DELAY` (10 microseconds). -/
def PWM_DEFAULT_DELAY : Nat := 10

/-- The constant `PWM_DEFAULT_STEPS_PER_MS` (100 steps per millisecond). -/
def PWM_DEFAULT_STEPS_PER_MS : Nat := 100

/-- Subtraction of two `u32` values, wrapping modulo `2 ^ 32`. -/
def sub32 (a b : Nat) : Nat := (a + U32_MOD - b % U32_MOD) % U32_MOD

/-- The fields of the kernel's `struct pwm_state` that the driver touches. -/
structure pwm_state where
  period : Nat
  duty_cycle : Nat
  polarity : Bool
  enabled : Bool
  deriving DecidableEq, Repr

/-- The three diagnostic messages of the write path. -/
inductive Log where
  | invalid_value
  | value_is (value count : Nat)
  | set_relative_error (value : Nat)
  deriving DecidableEq, Repr

/-- Calls into the kernel made by the write path. -/
inductive Call where
  | printk (msg : Log)
  | pwm_set_relative_duty_cycle (duty_cycle scale : Nat)
  | pwm_apply_state (state : pwm_state)
  | udelay (usecs : Nat)
  deriving DecidableEq, Repr

/-- Answers of the kernel to the write path.
* `kstrtou32_from_user buf base` is the return code and the value stored
  through the result pointer;
* `pwm_init_state` is the state that `pwm_init_state(pwm0, &newstate)` fills in;
* `pwm_apply_state n` is the return code of the call to `pwm_apply_state`
  that is preceded by `n` earlier such calls within the same write. -/
structure Kernel where
  kstrtou32_from_user : List Char → Nat → Int × Nat
  pwm_init_state : pwm_state
  pwm_apply_state : Nat → Int

/-- Driver state: the global `pwm_steps` and the kernel calls made so far. -/
structure Machine where
  pwm_steps : Nat
  trace : List Call
  deriving DecidableEq, Repr

/-- Record one kernel call. -/
def Machine.emit (m : Machine) (c : Call) : Machine :=
  { m with trace := m.trace ++ [c] }

/-- Number of `pwm_apply_state` calls in a trace. -/
def applyCount : List Call → Nat
  | [] => 0
  | Call.pwm_apply_state _ :: t => applyCount t + 1
  | _ :: t => applyCount t

/-- Number of `udelay` calls in a trace. -/
def delayCount : List Call → Nat
  | [] => 0
  | Call.udelay _ :: t => delayCount t + 1
  | _ :: t => delayCount t

/-- Total busy-wait time, in microseconds, of a trace. -/
def delayTotal : List Call → Nat
  | [] => 0
  | Call.udelay us :: t => us + delayTotal t
  | _ :: t => delayTotal t

/-- The (numerator, denominator) pairs handed to
`pwm_set_relative_duty_cycle`, one per call of `duty_cycle_change`. -/
def dutyCalls : List Call → List (Nat × Nat)
  | [] => []
  | Call.pwm_set_relative_duty_cycle d s :: t => (d, s) :: dutyCalls t
  | _ :: t => dutyCalls t

/-- Number of times the error branch of `duty_cycle_change` was taken. -/
def relErrorCount : List Call → Nat
  | [] => 0
  | Call.printk (Log.set_relative_error _) :: t => relErrorCount t + 1
  | _ :: t => relErrorCount t

/-- The states handed to `pwm_apply_state`. -/
def appliedStates : List Call → List pwm_state
  | [] => []
  | Call.pwm_apply_state st :: t => st :: appliedStates t
  | _ :: t => appliedStates t

/-! ## Kernel helpers used by the driver -/

/-- Modelled from the spec: `pwm_set_relative_duty_cycle` is an inline helper of
`<linux/pwm.h>`, which is not part of the sources.  It rejects (with `-EINVAL`)
a zero denominator and a numerator above the denominator; otherwise it stores
the duty cycle `numerator * period / denominator`, rounded to the closest
integer, and returns 0. -/
def pwm_set_relative_duty_cycle (state : pwm_state) (duty_cycle scale : Nat) :
    Int × pwm_state :=
  if scale = 0 ∨ duty_cycle > scale then (-22, state)
  else (0, { state with duty_cycle := (duty_cycle * state.period + scale / 2) / scale })

/-- Value of a decimal digit character, if it is one. -/
def digitVal (c : Char) : Option Nat :=
  if 48 ≤ c.toNat ∧ c.toNat ≤ 57 then some (c.toNat - 48) else none

/-- Accumulate decimal digits, most significant first. -/
def parseDigits : List Char → Nat → Option Nat
  | [], acc => some acc
  | c :: cs, acc =>
    match digitVal c with
    | some d => parseDigits cs (acc * 10 + d)
    | none => none

/-- Modelled from the spec: `kstrtou32_from_user` is a kernel library routine,
not part of the sources.  Following the contract quoted in the driver and in
the spec, text that is a base-10 unsigned integer below `2 ^ 32` gives return
code 0 and its value, a base-10 integer that does not fit 32 bits gives
`-ERANGE`, anything else gives `-EINVAL`. -/
def kstrtou32_from_user (user_buffer : List Char) ( _base : Nat) : Int × Nat :=
  match user_buffer with
  | [] => (-22, 0)
  | _ =>
    match parseDigits user_buffer 0 with
    | none => (-22, 0)
    | some v => if v < U32_MOD then (0, v) else (-34, 0)

/-- A kernel whose text parser is the modelled `kstrtou32_from_user`, whose
`pwm_init_state` gives `init` and whose hardware answers `hw`. -/
def linuxKernel (init : pwm_state) (hw : Nat → Int) : Kernel :=
  { kstrtou32_from_user := kstrtou32_from_user
    pwm_init_state := init
    pwm_apply_state := hw }

/-- Hardware that accepts every apply. -/
def hwAccept : Nat → Int := fun _ => 0

/-- Hardware that refuses (with `-EIO`) the apply preceded by `k` others and
accepts every other one. -/
def hwRefuseAt (k : Nat) : Nat → Int := fun n => if n = k then -5 else 0

/-- State of the channel as `ModuleInit` leaves it, before any duty cycle is
computed: the configured period, enabled. -/
def bootState : pwm_state :=
  { period := PWM_PERIOD, duty_cycle := 0, polarity := false, enabled := true }

/-- Number of `pwm_apply_state` calls of a trace that the hardware accepted
(answered with 0). -/
def acceptedApplies (K : Kernel) (t : List Call) : Nat :=
  (List.range (applyCount t)).countP (fun n => decide (K.pwm_apply_state n = 0))

/-! ## The driver's write path -/

/-- The function `static void steps_comp(u32 ms)`:
`pwm_steps = ms*PWM_DEFAULT_STEPS_PER_MS;` in `u32` arithmetic. -/
def steps_comp (m : Machine) (ms : Nat) : Machine :=
  { m with pwm_steps := (ms * PWM_DEFAULT_STEPS_PER_MS) % U32_MOD }

/-- The function
`static int duty_cycle_change(struct pwm_device *target, u32 period, u32 value)`:
it records the call of `pwm_set_relative_duty_cycle` with denominator
`pwm_steps - 1`, then either the call of `pwm_apply_state`, whose answer it
returns, or the error message, returning -1. -/
def duty_cycle_change (K : Kernel) (m : Machine) (period value : Nat) : Int × Machine :=
  let newstate := K.pwm_init_state
  let newstate := { newstate with enabled := true }
  let newstate := { newstate with period := period }
  let scale := sub32 m.pwm_steps 1
  let m1 := m.emit (Call.pwm_set_relative_duty_cycle value scale)
  let r := pwm_set_relative_duty_cycle newstate value scale
  if r.1 = 0 then
    let ret := K.pwm_apply_state (applyCount m1.trace)
    (ret, m1.emit (Call.pwm_apply_state r.2))
  else
    (-1, m1.emit (Call.printk (Log.set_relative_error value)))

/-- The `for (i = 0; i < pwm_steps; i++)` loop of `driver_write`, entered with
loop counter `i`.  The first argument bounds the number of iterations; the
result is `some r` when the body executed `return r`, and `none` when the loop
ran to its end. -/
def sweep (K : Kernel) : Nat → Nat → Machine → Option Int × Machine
  | 0, _, m => (none, m)
  | fuel + 1, i, m =>
    if i < m.pwm_steps then
      let value := if i < m.pwm_steps / 2 then i else sub32 (sub32 m.pwm_steps 1) i
      let r := duty_cycle_change K m PWM_PERIOD value
      if r.1 ≠ 0 then (some (-1), r.2)
      else sweep K fuel ((i + 1) % U32_MOD) (r.2.emit (Call.udelay PWM_DEFAULT_DELAY))
    else (none, m)

/-- The function `static ssize_t driver_write(struct file *File,
const char __user *user_buffer, size_t count, loff_t *offset)`; `count` is the
length of `user_buffer`.  The loop is given the bound `pwm_steps`, which covers
all its iterations (`sweep_fuel_irrelevant`). -/
def driver_write (K : Kernel) (m : Machine) (user_buffer : List Char) : Int × Machine :=
  let count := user_buffer.length
  let p := K.kstrtou32_from_user user_buffer 10
  if p.1 < 0 then
    (-1, m.emit (Call.printk Log.invalid_value))
  else
    let value := p.2 % U32_MOD
    let m1 := m.emit (Call.printk (Log.value_is value count))
    let m2 := steps_comp m1 value
    match sweep K m2.pwm_steps 0 m2 with
    | (some r, m3) => (r, m3)
    | (none, m3) => ((count : Int), m3)

/-- Step count that a write derives from its input: the value of `pwm_steps`
after `steps_comp` ran on the parsed `u32` value. -/
def total_steps (K : Kernel) (user_buffer : List Char) : Nat :=
  (steps_comp { pwm_steps := 0, trace := [] }
    ((K.kstrtou32_from_user user_buffer 10).2 % U32_MOD)).pwm_steps

/-! ## Reference traces

The calls one loop iteration makes, used to state what a sweep does. -/

/-- Numerator chosen by the loop body at loop counter `i`. -/
def rampValue (steps i : Nat) : Nat :=
  if i < steps / 2 then i else steps - 1 - i

/-- State that `duty_cycle_change` builds for numerator `value` over
denominator `scale`. -/
def relState (K : Kernel) (period value scale : Nat) : pwm_state :=
  { K.pwm_init_state with
    enabled := true
    period := period
    duty_cycle := (value * period + scale / 2) / scale }

/-- Kernel calls of a loop iteration at counter `i` up to the hardware apply. -/
def attemptCalls (K : Kernel) (steps i : Nat) : List Call :=
  [Call.pwm_set_relative_duty_cycle (rampValue steps i) (steps - 1),
   Call.pwm_apply_state (relState K PWM_PERIOD (rampValue steps i) (steps - 1))]

/-- Kernel calls of `n` successive successful iterations starting at counter `i`. -/
def okCalls (K : Kernel) (steps : Nat) : Nat → Nat → List Call
  | _, 0 => []
  | i, n + 1 =>
    attemptCalls K steps i ++ [Call.udelay PWM_DEFAULT_DELAY] ++ okCalls K steps (i + 1) n

/-! ## Load and unload hooks -/

/-- Diagnostic messages of `ModuleInit` and `ModuleExit`. -/
inductive LifeLog where
  | hello
  | no_device_number
  | registered (dev_nr : Nat)
  | no_class
  | no_file
  | no_register
  | no_pwm
  | goodbye
  deriving DecidableEq, Repr

/-- Calls into the kernel made by `ModuleInit` and `ModuleExit`, with their
arguments and, for the calls that acquire something, the kernel's answer
(a return code, or a pointer with 0 for `NULL`). -/
inductive LifeCall where
  | printk (msg : LifeLog)
  | alloc_chrdev_region (ret : Int)
  | class_create (ret : Nat)
  | device_create (cls dev_nr ret : Nat)
  | cdev_init
  | cdev_add (dev_nr : Nat) (ret : Int)
  | pwm_request (ret : Nat)
  | pwm_config (pwm duty_ns period_ns : Nat)
  | pwm_enable (pwm : Nat)
  | pwm_disable (pwm : Nat)
  | pwm_free (pwm : Nat)
  | cdev_del
  | device_destroy (cls dev_nr : Nat)
  | class_destroy (cls : Nat)
  | unregister_chrdev_region (dev_nr : Nat)
  deriving DecidableEq, Repr

/-- Answers of the kernel to the acquisition calls of `ModuleInit`: the return
code of `alloc_chrdev_region` and the device number it stores, the pointers
returned by `class_create`, `device_create` and `pwm_request` (0 for `NULL`),
and the return code of `cdev_add`. -/
structure InitEnv where
  alloc_chrdev_region : Int
  device_nr : Nat
  class_create : Nat
  device_create : Nat
  cdev_add : Int
  pwm_request : Nat
  deriving DecidableEq, Repr

/-- The module's global handles: `my_device_nr`, `my_class` and `pwm0`. -/
structure Globals where
  my_device_nr : Nat
  my_class : Nat
  pwm0 : Nat
  deriving DecidableEq, Repr

/-- The resources the module holds while loaded. -/
inductive Resource where
  | region
  | cls
  | file
  | cdev
  | channel
  deriving DecidableEq, Repr

/-- Code after the label `ClassError:` up to `return -1`. -/
def ClassError (g : Globals) : List LifeCall :=
  [LifeCall.unregister_chrdev_region g.my_device_nr]

/-- Code after the label `FileError:`, falling through to `ClassError:`. -/
def FileError (g : Globals) : List LifeCall :=
  LifeCall.class_destroy g.my_class :: ClassError g

/-- Code after the label `AddError:`, falling through to `FileError:`. -/
def AddError (g : Globals) : List LifeCall :=
  LifeCall.device_destroy g.my_class g.my_device_nr :: FileError g

/-- The function `static int __init ModuleInit(void)`: return value, globals
afterwards and kernel calls made. -/
def ModuleInit (E : InitEnv) (g : Globals) : Int × Globals × List LifeCall :=
  let t := [LifeCall.printk LifeLog.hello, LifeCall.alloc_chrdev_region E.alloc_chrdev_region]
  if E.alloc_chrdev_region < 0 then
    (-1, g, t ++ [LifeCall.printk LifeLog.no_device_number])
  else
    let g := { g with my_device_nr := E.device_nr }
    let t := t ++ [LifeCall.printk (LifeLog.registered g.my_device_nr)]
    let g := { g with my_class := E.class_create }
    let t := t ++ [LifeCall.class_create E.class_create]
    if g.my_class = 0 then
      (-1, g, t ++ [LifeCall.printk LifeLog.no_class] ++ ClassError g)
    else
      let t := t ++ [LifeCall.device_create g.my_class g.my_device_nr E.device_create]
      if E.device_create = 0 then
        (-1, g, t ++ [LifeCall.printk LifeLog.no_file] ++ FileError g)
      else
        let t := t ++ [LifeCall.cdev_init, LifeCall.cdev_add g.my_device_nr E.cdev_add]
        if E.cdev_add = -1 then
          (-1, g, t ++ [LifeCall.printk LifeLog.no_register] ++ AddError g)
        else
          let g := { g with pwm0 := E.pwm_request }
          let t := t ++ [LifeCall.pwm_request E.pwm_request]
          if g.pwm0 = 0 then
            (-1, g, t ++ [LifeCall.printk LifeLog.no_pwm] ++ AddError g)
          else
            (0, g, t ++ [LifeCall.pwm_config g.pwm0 (PWM_PERIOD / 10) PWM_PERIOD,
              LifeCall.pwm_enable g.pwm0])

/-- The function `static void __exit ModuleExit(void)`: kernel calls made. -/
def ModuleExit (g : Globals) : List LifeCall :=
  [LifeCall.pwm_disable g.pwm0,
   LifeCall.pwm_free g.pwm0,
   LifeCall.cdev_del,
   LifeCall.device_destroy g.my_class g.my_device_nr,
   LifeCall.class_destroy g.my_class,
   LifeCall.unregister_chrdev_region g.my_device_nr,
   LifeCall.printk LifeLog.goodbye]

/-- The resource a call acquires, judged by the test `ModuleInit` itself applies
to the kernel's answer. -/
def acquires : LifeCall → Option Resource
  | LifeCall.alloc_chrdev_region ret => if ret < 0 then none else some Resource.region
  | LifeCall.class_create ret => if ret = 0 then none else some Resource.cls
  | LifeCall.device_create _ _ ret => if ret = 0 then none else some Resource.file
  | LifeCall.cdev_add _ ret => if ret = -1 then none else some Resource.cdev
  | LifeCall.pwm_request ret => if ret = 0 then none else some Resource.channel
  | _ => none

/-- The resource a call gives back. -/
def releases : LifeCall → Option Resource
  | LifeCall.pwm_free _ => some Resource.channel
  | LifeCall.cdev_del => some Resource.cdev
  | LifeCall.device_destroy _ _ => some Resource.file
  | LifeCall.class_destroy _ => some Resource.cls
  | LifeCall.unregister_chrdev_region _ => some Resource.region
  | _ => none

/-- Resources acquired by a trace, in order of acquisition. -/
def acquired (t : List LifeCall) : List Resource := t.filterMap acquires

/-- Resources released by a trace, in order of release. -/
def released (t : List LifeCall) : List Resource := t.filterMap releases

/-- Globals before the module is loaded (`pwm0 = NULL`, statics zeroed). -/
def noGlobals : Globals := { my_device_nr := 0, my_class := 0, pwm0 := 0 }

/-- A load in which every acquisition succeeds. -/
def envAllOk : InitEnv :=
  { alloc_chrdev_region := 0, device_nr := 240, class_create := 1, device_create := 2,
    cdev_add := 0, pwm_request := 3 }

/-- A load in which everything up to `cdev_add` succeeds and `pwm_request`
returns `NULL`. -/
def envNoPwm : InitEnv :=
  { alloc_chrdev_region := 0, device_nr := 240, class_create := 1, device_create := 2,
    cdev_add := 0, pwm_request := 0 }

/-! ## The channel seen from the hardware -/

/-- Modelled from the spec: the effect of the `pwm_apply_state` calls of a trace
on the channel.  `pwm_apply_state` belongs to the kernel, not to the sources; an
accepted call (answer 0) installs the state handed over, a refused one leaves
the channel as it was.  The first argument is the number of earlier
`pwm_apply_state` calls, the second the state of the channel so far. -/
def channelAfter (K : Kernel) : Nat → pwm_state → List Call → pwm_state
  | _, cur, [] => cur
  | n, cur, Call.pwm_apply_state st :: t =>
    channelAfter K (n + 1) (if K.pwm_apply_state n = 0 then st else cur) t
  | n, cur, _ :: t => channelAfter K n cur t

end PulsePwm

/-!
Fixed-step PWM driver (`06/pwm_driver.c`): the write path.
-/

namespace FixedPwm

/-- Calls into the kernel made by the write path of the fixed-step driver. -/
inductive Call where
  | copy_from_user (n : Nat)
  | printk_invalid_value
  | pwm_config (duty_ns period_ns : Nat)
  deriving DecidableEq, Repr

/-- The function `static ssize_t driver_write(struct file *File,
const char __user *user_buffer, size_t count, loff_t *offset)` of the fixed-step
driver; `count` is the length of `user_buffer`.  `not_copied` is the answer of
`copy_from_user` and `stale` is what the local `char value` holds when no byte
reaches it.  The result is the return value `delta` and the kernel calls
made. -/
def driver_write (not_copied : Nat) (stale : Nat) (user_buffer : List Char) :
    Int × List Call :=
  let count := user_buffer.length
  let to_copy := min count 1
  let value : Nat :=
    match user_buffer.take (to_copy - not_copied) with
    | c :: _ => c.toNat
    | [] => stale
  let t := [Call.copy_from_user to_copy]
  let t :=
    if value < 'a'.toNat ∨ value > 'j'.toNat then t ++ [Call.printk_invalid_value]
    else t ++ [Call.pwm_config (100000000 * (value - 'a'.toNat)) 1000000000]
  let delta : Int := (to_copy : Int) - (not_copied : Int)
  (delta, t)

/-- The on times handed to `pwm_config`, with their periods. -/
def configured : List Call → List (Nat × Nat)
  | [] => []
  | Call.pwm_config d p :: t => (d, p) :: configured t
  | _ :: t => configured t

end FixedPwm

/-!
Read/write character device (`03/read_write.c`, and the same function in
`03_2/kernel_thread_test.c`): the write path.
-/

namespace ReadWrite

/-- The constant `BUFFER_LENGTH` (1024), the size of `cust_dev_buffer`. -/
def BUFFER_LENGTH : Nat := 1024

/-- The two diagnostic messages of the write path, with their arguments. -/
inductive Log where
  | requested (count : Nat) (delta : Int)
  | contents
  deriving DecidableEq, Repr

/-- What a write does: its return value, the new `cust_dev_buffer_index`, the
bytes it stores as pairs (index into `cust_dev_buffer`, value) in the order of
the stores, and its messages. -/
structure WriteResult where
  ret : Int
  cust_dev_buffer_index : Int
  stores : List (Int × Nat)
  logs : List Log
  deriving DecidableEq, Repr

/-- Stores made by `copy_from_user(cust_dev_buffer, user_buffer, to_copy)` for the
bytes it did copy, the first of them going to index `i`. -/
def copyStores : Nat → List Char → List (Int × Nat)
  | _, [] => []
  | i, c :: cs => ((i : Int), c.toNat) :: copyStores (i + 1) cs

/-- The function `static ssize_t driver_write(struct file *File,
const char __user *user_buffer, size_t count, loff_t *offset)` of the read/write
device; `count` is the length of `user_buffer` and `not_copied` is the answer
of `copy_from_user`, the number of bytes it could not copy. -/
def driver_write (not_copied : Nat) (user_buffer : List Char) : WriteResult :=
  let count := user_buffer.length
  let to_copy := min count BUFFER_LENGTH
  let copied := copyStores 0 (user_buffer.take (to_copy - not_copied))
  let delta : Int := (to_copy : Int) - (not_copied : Int)
  { ret := delta
    cust_dev_buffer_index := delta
    stores := copied ++ [(delta, 0)]
    logs := [Log.requested count delta, Log.contents] }

/-- Every store of a write lands inside `cust_dev_buffer`. -/
def storesInBounds (r : WriteResult) : Bool :=
  r.stores.all (fun p => decide (0 ≤ p.1 ∧ p.1 < (BUFFER_LENGTH : Int)))

end ReadWrite

/-! # Properties -/

namespace PulsePwm

/-! ## Arithmetic of `u32` values -/

theorem sub32_of_le {a b : Nat} (hb : b ≤ a) (ha : a < U32_MOD) : sub32 a b = a - b := by
  unfold sub32 U32_MOD at *
  have hb' : b % 4294967296 = b := Nat.mod_eq_of_lt (by omega)
  rw [hb']
  omega

theorem steps_comp_pwm_steps (m : Machine) (ms : Nat) :
    (steps_comp m ms).pwm_steps = (ms * 100) % U32_MOD := rfl

theorem steps_comp_trace (m : Machine) (ms : Nat) :
    (steps_comp m ms).trace = m.trace := rfl

theorem steps_comp_lt (m : Machine) (ms : Nat) : (steps_comp m ms).pwm_steps < U32_MOD := by
  rw [steps_comp_pwm_steps]
  exact Nat.mod_lt _ (by decide)

/-- The step count is always a multiple of 4, because 100 is. -/
theorem steps_comp_mod_four (m : Machine) (ms : Nat) : (steps_comp m ms).pwm_steps % 4 = 0 := by
  rw [steps_comp_pwm_steps]
  unfold U32_MOD
  omega

theorem rampValue_le (steps i : Nat) (hi : i < steps) : rampValue steps i ≤ steps - 1 := by
  unfold rampValue
  split <;> omega

/-! ## Trace bookkeeping -/

theorem applyCount_append (s t : List Call) :
    applyCount (s ++ t) = applyCount s + applyCount t := by
  induction s with
  | nil => simp [applyCount]
  | cons c s ih =>
    cases c <;> simp [applyCount, ih]
    omega

theorem delayCount_append (s t : List Call) :
    delayCount (s ++ t) = delayCount s + delayCount t := by
  induction s with
  | nil => simp [delayCount]
  | cons c s ih =>
    cases c <;> simp [delayCount, ih]
    omega

theorem delayTotal_append (s t : List Call) :
    delayTotal (s ++ t) = delayTotal s + delayTotal t := by
  induction s with
  | nil => simp [delayTotal]
  | cons c s ih =>
    cases c <;> simp [delayTotal, ih]
    omega

theorem dutyCalls_append (s t : List Call) :
    dutyCalls (s ++ t) = dutyCalls s ++ dutyCalls t := by
  induction s with
  | nil => simp [dutyCalls]
  | cons c s ih => cases c <;> simp [dutyCalls, ih]

theorem appliedStates_append (s t : List Call) :
    appliedStates (s ++ t) = appliedStates s ++ appliedStates t := by
  induction s with
  | nil => simp [appliedStates]
  | cons c s ih => cases c <;> simp [appliedStates, ih]

/-! ## One call of `duty_cycle_change` -/

/-- With a denominator of at least 1 and a numerator not above it,
`duty_cycle_change` reaches `pwm_apply_state` and returns its answer. -/
theorem duty_cycle_change_eq (K : Kernel) (m : Machine) (period value : Nat)
    (h2 : 2 ≤ m.pwm_steps) (hlt : m.pwm_steps < U32_MOD) (hv : value ≤ m.pwm_steps - 1) :
    duty_cycle_change K m period value =
      (K.pwm_apply_state (applyCount m.trace),
        { pwm_steps := m.pwm_steps
          trace := m.trace ++
            [Call.pwm_set_relative_duty_cycle value (m.pwm_steps - 1),
             Call.pwm_apply_state (relState K period value (m.pwm_steps - 1))] }) := by
  have hs : sub32 m.pwm_steps 1 = m.pwm_steps - 1 := sub32_of_le (by omega) hlt
  have hcond : ¬ (m.pwm_steps - 1 = 0 ∨ value > m.pwm_steps - 1) := by omega
  simp only [duty_cycle_change, hs, pwm_set_relative_duty_cycle, hcond, if_false,
    Machine.emit, if_true, applyCount_append, applyCount, relState, List.append_assoc,
    List.singleton_append, Nat.add_zero]

/-! ## The sweep loop -/

theorem duty_cycle_change_pwm_steps (K : Kernel) (m : Machine) (period value : Nat) :
    (duty_cycle_change K m period value).2.pwm_steps = m.pwm_steps := by
  simp only [duty_cycle_change, Machine.emit]
  split_ifs <;> simp only

/-- The iteration bound never cuts the loop short: once it covers the
iterations left, one more unit changes nothing. -/
theorem sweep_fuel_succ (K : Kernel) (fuel : Nat) :
    ∀ (i : Nat) (m : Machine), m.pwm_steps < U32_MOD → m.pwm_steps ≤ i + fuel →
      sweep K (fuel + 1) i m = sweep K fuel i m := by
  induction fuel with
  | zero =>
    intro i m _ hle
    have : ¬ i < m.pwm_steps := by omega
    simp [sweep, this]
  | succ f ih =>
    intro i m hlt hle
    conv_lhs => rw [sweep]
    conv_rhs => rw [sweep]
    by_cases hi : i < m.pwm_steps
    · simp only [hi, if_true]
      generalize (if i < m.pwm_steps / 2 then i else sub32 (sub32 m.pwm_steps 1) i) = v
      by_cases hr : (duty_cycle_change K m PWM_PERIOD v).1 = 0
      · have hmod : (i + 1) % U32_MOD = i + 1 := Nat.mod_eq_of_lt (by omega)
        simp only [hr, ne_eq, not_true_eq_false, if_false, hmod]
        apply ih
        · simpa only [Machine.emit, duty_cycle_change_pwm_steps] using hlt
        · simp only [Machine.emit, duty_cycle_change_pwm_steps]
          omega
      · simp only [hr, ne_eq, not_false_eq_true, if_true]
    · simp only [hi, if_false]

/-- Any bound that covers the iterations left gives the same result as the
bound `pwm_steps - i`. -/
theorem sweep_fuel_irrelevant (K : Kernel) (i : Nat) (m : Machine) (extra : Nat)
    (hlt : m.pwm_steps < U32_MOD) :
    sweep K (m.pwm_steps - i + extra) i m = sweep K (m.pwm_steps - i) i m := by
  induction extra with
  | zero => rfl
  | succ e ih =>
    rw [← ih, ← Nat.add_assoc]
    exact sweep_fuel_succ K _ i m hlt (by omega)

/-- One successful iteration of the loop body. -/
theorem sweep_step_ok (K : Kernel) (fuel i : Nat) (m : Machine)
    (h2 : 2 ≤ m.pwm_steps) (hlt : m.pwm_steps < U32_MOD) (hi : i < m.pwm_steps)
    (hok : K.pwm_apply_state (applyCount m.trace) = 0) :
    sweep K (fuel + 1) i m =
      sweep K fuel (i + 1)
        { pwm_steps := m.pwm_steps
          trace := m.trace ++ (attemptCalls K m.pwm_steps i ++ [Call.udelay PWM_DEFAULT_DELAY]) } := by
  have hs1 : sub32 m.pwm_steps 1 = m.pwm_steps - 1 := sub32_of_le (by omega) hlt
  have hs2 : sub32 (m.pwm_steps - 1) i = m.pwm_steps - 1 - i :=
    sub32_of_le (by omega) (by omega)
  have hval : (if i < m.pwm_steps / 2 then i else sub32 (sub32 m.pwm_steps 1) i)
      = rampValue m.pwm_steps i := by
    rw [hs1, hs2]; rfl
  have hmod : (i + 1) % U32_MOD = i + 1 := Nat.mod_eq_of_lt (by omega)
  rw [sweep]
  simp only [hi, if_true, hval]
  rw [duty_cycle_change_eq K m PWM_PERIOD _ h2 hlt (rampValue_le _ _ hi)]
  simp only [hok, ne_eq, not_true_eq_false, if_false, hmod, Machine.emit, attemptCalls,
    List.append_assoc, List.cons_append, List.nil_append]

/-- An iteration whose hardware apply is refused. -/
theorem sweep_step_fail (K : Kernel) (fuel i : Nat) (m : Machine)
    (h2 : 2 ≤ m.pwm_steps) (hlt : m.pwm_steps < U32_MOD) (hi : i < m.pwm_steps)
    (hbad : K.pwm_apply_state (applyCount m.trace) ≠ 0) :
    sweep K (fuel + 1) i m =
      (some (-1),
        { pwm_steps := m.pwm_steps
          trace := m.trace ++ attemptCalls K m.pwm_steps i }) := by
  have hs1 : sub32 m.pwm_steps 1 = m.pwm_steps - 1 := sub32_of_le (by omega) hlt
  have hs2 : sub32 (m.pwm_steps - 1) i = m.pwm_steps - 1 - i :=
    sub32_of_le (by omega) (by omega)
  have hval : (if i < m.pwm_steps / 2 then i else sub32 (sub32 m.pwm_steps 1) i)
      = rampValue m.pwm_steps i := by
    rw [hs1, hs2]; rfl
  rw [sweep]
  simp only [hi, if_true, hval]
  rw [duty_cycle_change_eq K m PWM_PERIOD _ h2 hlt (rampValue_le _ _ hi)]
  simp only [hbad, ne_eq, not_false_eq_true, if_true, attemptCalls]

theorem applyCount_attemptCalls (K : Kernel) (steps i : Nat) :
    applyCount (attemptCalls K steps i ++ [Call.udelay PWM_DEFAULT_DELAY]) = 1 := rfl

/-- A run of `n` successful iterations starting at counter `i`. -/
theorem sweep_ok_run (K : Kernel) (steps : Nat) (h2 : 2 ≤ steps) (hlt : steps < U32_MOD)
    (n : Nat) :
    ∀ (fuel i : Nat) (t : List Call), i + n ≤ steps →
      (∀ j, j < n → K.pwm_apply_state (applyCount t + j) = 0) →
      sweep K (fuel + n) i { pwm_steps := steps, trace := t } =
        sweep K fuel (i + n) { pwm_steps := steps, trace := t ++ okCalls K steps i n } := by
  induction n with
  | zero => intro fuel i t _ _; simp [okCalls]
  | succ n ih =>
    intro fuel i t hle hok
    have h0 := hok 0 (by omega)
    rw [show fuel + (n + 1) = (fuel + n) + 1 by omega]
    rw [sweep_step_ok K (fuel + n) i ⟨steps, t⟩ h2 hlt (by simpa using (by omega : i < steps))
      (by simpa using h0)]
    rw [ih fuel (i + 1) _ (by omega)]
    · simp only [okCalls, List.append_assoc, show i + (n + 1) = i + 1 + n by omega]
    · intro j hj
      have := hok (j + 1) (by omega)
      rw [applyCount_append, applyCount_attemptCalls]
      rw [show applyCount t + 1 + j = applyCount t + (j + 1) by omega]
      exact this

theorem applyCount_okCalls (K : Kernel) (steps : Nat) (n : Nat) :
    ∀ i, applyCount (okCalls K steps i n) = n := by
  induction n with
  | zero => intro i; rfl
  | succ n ih =>
    intro i
    rw [okCalls, applyCount_append, applyCount_attemptCalls, ih]
    omega

theorem delayCount_okCalls (K : Kernel) (steps : Nat) (n : Nat) :
    ∀ i, delayCount (okCalls K steps i n) = n := by
  induction n with
  | zero => intro i; rfl
  | succ n ih =>
    intro i
    rw [okCalls, delayCount_append, ih]
    simp only [attemptCalls, List.cons_append, List.nil_append, delayCount]
    omega

theorem delayTotal_okCalls (K : Kernel) (steps : Nat) (n : Nat) :
    ∀ i, delayTotal (okCalls K steps i n) = n * PWM_DEFAULT_DELAY := by
  induction n with
  | zero => intro i; simp [okCalls, delayTotal]
  | succ n ih =>
    intro i
    rw [okCalls, delayTotal_append, ih]
    simp only [attemptCalls, List.cons_append, List.nil_append, delayTotal]
    unfold PWM_DEFAULT_DELAY
    omega

theorem dutyCalls_okCalls (K : Kernel) (steps : Nat) (n : Nat) :
    ∀ i, dutyCalls (okCalls K steps i n) =
      (List.range' i n).map (fun j => (rampValue steps j, steps - 1)) := by
  induction n with
  | zero => intro i; rfl
  | succ n ih =>
    intro i
    rw [okCalls, dutyCalls_append, ih]
    simp [attemptCalls, dutyCalls, List.range'_succ]

theorem dutyCalls_attemptCalls (K : Kernel) (steps i : Nat) :
    dutyCalls (attemptCalls K steps i) = [(rampValue steps i, steps - 1)] := rfl

/-- The whole loop when every hardware apply is accepted. -/
theorem sweep_all_ok (K : Kernel) (steps : Nat) (h2 : 2 ≤ steps) (hlt : steps < U32_MOD)
    (t : List Call) (hok : ∀ j, j < steps → K.pwm_apply_state (applyCount t + j) = 0) :
    sweep K steps 0 { pwm_steps := steps, trace := t } =
      (none, { pwm_steps := steps, trace := t ++ okCalls K steps 0 steps }) := by
  have h := sweep_ok_run K steps h2 hlt steps 0 0 t (by omega) hok
  simp only [Nat.zero_add] at h
  rw [h, sweep]

/-- The whole loop when the apply of iteration `k` is the first one refused. -/
theorem sweep_first_fail (K : Kernel) (steps : Nat) (h2 : 2 ≤ steps) (hlt : steps < U32_MOD)
    (t : List Call) (k : Nat) (hk : k < steps)
    (hok : ∀ j, j < k → K.pwm_apply_state (applyCount t + j) = 0)
    (hbad : K.pwm_apply_state (applyCount t + k) ≠ 0) :
    sweep K steps 0 { pwm_steps := steps, trace := t } =
      (some (-1),
        { pwm_steps := steps
          trace := t ++ (okCalls K steps 0 k ++ attemptCalls K steps k) }) := by
  have h := sweep_ok_run K steps h2 hlt k (steps - k - 1 + 1) 0 t (by omega) hok
  rw [show steps - k - 1 + 1 + k = steps by omega, Nat.zero_add] at h
  rw [h, sweep_step_fail K (steps - k - 1) k _ h2 hlt hk]
  · simp only [List.append_assoc]
  · simpa only [applyCount_append, applyCount_okCalls] using hbad

/-! ## The whole write -/

theorem total_steps_lt (K : Kernel) (buf : List Char) : total_steps K buf < U32_MOD :=
  steps_comp_lt _ _

theorem total_steps_mod_four (K : Kernel) (buf : List Char) : total_steps K buf % 4 = 0 :=
  steps_comp_mod_four _ _

/-- A write whose text is accepted runs the loop on the freshly computed
step count. -/
theorem driver_write_parsed (K : Kernel) (s0 : Nat) (buf : List Char)
    (hp : 0 ≤ (K.kstrtou32_from_user buf 10).1) :
    driver_write K { pwm_steps := s0, trace := [] } buf =
      match sweep K (total_steps K buf) 0
          { pwm_steps := total_steps K buf
            trace := [Call.printk
              (Log.value_is ((K.kstrtou32_from_user buf 10).2 % U32_MOD) buf.length)] } with
      | (some r, m3) => (r, m3)
      | (none, m3) => ((buf.length : Int), m3) := by
  have hn : ¬ (K.kstrtou32_from_user buf 10).1 < 0 := by omega
  simp only [driver_write, hn, if_false, Machine.emit, steps_comp, total_steps,
    List.nil_append]

/-- A write whose text is refused. -/
theorem driver_write_invalid (K : Kernel) (m : Machine) (buf : List Char)
    (hp : (K.kstrtou32_from_user buf 10).1 < 0) :
    driver_write K m buf =
      (-1, { pwm_steps := m.pwm_steps, trace := m.trace ++ [Call.printk Log.invalid_value] }) := by
  simp only [driver_write, hp, if_true, Machine.emit]

/-- A write whose text is accepted and whose hardware applies are all accepted. -/
theorem driver_write_all_ok (K : Kernel) (s0 : Nat) (buf : List Char)
    (hp : 0 ≤ (K.kstrtou32_from_user buf 10).1)
    (hok : ∀ j, j < total_steps K buf → K.pwm_apply_state j = 0) :
    driver_write K { pwm_steps := s0, trace := [] } buf =
      ((buf.length : Int),
        { pwm_steps := total_steps K buf
          trace := Call.printk
              (Log.value_is ((K.kstrtou32_from_user buf 10).2 % U32_MOD) buf.length) ::
            okCalls K (total_steps K buf) 0 (total_steps K buf) }) := by
  rw [driver_write_parsed K s0 buf hp]
  have h4 := total_steps_mod_four K buf
  have hlt := total_steps_lt K buf
  generalize total_steps K buf = steps at *
  by_cases h0 : steps = 0
  · subst h0
    simp only [sweep, okCalls]
  · rw [sweep_all_ok K steps (by omega) hlt _ (by simpa [applyCount] using hok)]
    simp only [List.singleton_append]

/-- A write whose text is accepted and whose hardware apply at iteration `k`
is the first one refused. -/
theorem driver_write_first_fail (K : Kernel) (s0 : Nat) (buf : List Char)
    (hp : 0 ≤ (K.kstrtou32_from_user buf 10).1)
    (k : Nat) (hk : k < total_steps K buf)
    (hok : ∀ j, j < k → K.pwm_apply_state j = 0) (hbad : K.pwm_apply_state k ≠ 0) :
    driver_write K { pwm_steps := s0, trace := [] } buf =
      (-1,
        { pwm_steps := total_steps K buf
          trace := Call.printk
              (Log.value_is ((K.kstrtou32_from_user buf 10).2 % U32_MOD) buf.length) ::
            (okCalls K (total_steps K buf) 0 k ++ attemptCalls K (total_steps K buf) k) }) := by
  rw [driver_write_parsed K s0 buf hp]
  have h4 := total_steps_mod_four K buf
  have hlt := total_steps_lt K buf
  generalize total_steps K buf = steps at *
  rw [sweep_first_fail K steps (by omega) hlt _ k hk (by simpa [applyCount] using hok)
    (by simpa [applyCount] using hbad)]
  simp only [List.singleton_append]

/-- Either every apply of a sweep of `steps` iterations is accepted, or there
is a first refused one. -/
theorem all_ok_or_first_fail (hw : Nat → Int) (steps : Nat) :
    (∀ j, j < steps → hw j = 0) ∨
      ∃ k, k < steps ∧ (∀ j, j < k → hw j = 0) ∧ hw k ≠ 0 := by
  induction steps with
  | zero => left; intro j hj; omega
  | succ n ih =>
    rcases ih with h | ⟨k, hk, hok, hbad⟩
    · by_cases hn : hw n = 0
      · left
        intro j hj
        rcases Nat.lt_succ_iff_lt_or_eq.mp hj with h1 | h1
        · exact h j h1
        · rw [h1]; exact hn
      · right
        exact ⟨n, by omega, h, hn⟩
    · right
      exact ⟨k, by omega, hok, hbad⟩

theorem dutyCalls_okCalls_zero (K : Kernel) (steps n : Nat) :
    dutyCalls (okCalls K steps 0 n) =
      (List.range n).map (fun j => (rampValue steps j, steps - 1)) := by
  rw [dutyCalls_okCalls, List.range_eq_range']

theorem dutyCalls_refused (K : Kernel) (steps k : Nat) :
    dutyCalls (okCalls K steps 0 k ++ attemptCalls K steps k) =
      (List.range (k + 1)).map (fun j => (rampValue steps j, steps - 1)) := by
  rw [dutyCalls_append, dutyCalls_okCalls_zero, dutyCalls_attemptCalls, List.range_succ,
    List.map_append, List.map_singleton]

theorem getElem?_map_range {α : Type} (f : Nat → α) (n i : Nat) (h : i < n) :
    ((List.range n).map f)[i]? = some (f i) := by
  rw [List.getElem?_map, List.getElem?_range h]
  rfl

/-- The numerator and denominator pairs of a write are those of the first
`n` loop iterations, for some `n` up to the step count; `n` is the step
count when every apply is accepted, and `k + 1` when apply `k` is the first
one refused. -/
theorem dutyCalls_driver_write (K : Kernel) (s0 : Nat) (buf : List Char)
    (hp : 0 ≤ (K.kstrtou32_from_user buf 10).1) :
    ∃ n, n ≤ total_steps K buf ∧
      ((∀ j, j < total_steps K buf → K.pwm_apply_state j = 0) → n = total_steps K buf) ∧
      (∀ i, (∀ j, j < i → K.pwm_apply_state j = 0) → i < total_steps K buf → i < n) ∧
      dutyCalls (driver_write K { pwm_steps := s0, trace := [] } buf).2.trace =
        (List.range n).map
          (fun j => (rampValue (total_steps K buf) j, total_steps K buf - 1)) := by
  rcases all_ok_or_first_fail K.pwm_apply_state (total_steps K buf) with hall | ⟨k, hk, hok, hbad⟩
  · refine ⟨total_steps K buf, le_refl _, fun _ => rfl, fun i _ hi => hi, ?_⟩
    rw [driver_write_all_ok K s0 buf hp hall]
    simp only [dutyCalls, dutyCalls_okCalls_zero]
  · refine ⟨k + 1, by omega, fun hall => absurd (hall k hk) hbad, ?_, ?_⟩
    · intro i hi _
      by_contra hlt
      exact hbad (hi k (by omega))
    · rw [driver_write_first_fail K s0 buf hp k hk hok hbad]
      simp only [dutyCalls, dutyCalls_refused]

/-! ## Claims about the write path -/

/-- C1: in a write whose text is accepted, for every step index `i` below the
step count such that every earlier hardware apply was accepted, the call of
`duty_cycle_change` number `i` gets numerator `i` when `i < total_steps / 2` and
`total_steps - 1 - i` otherwise, over denominator `total_steps - 1`. -/
theorem driver_write_step_duty (K : Kernel) (s0 : Nat) (buf : List Char)
    (hp : 0 ≤ (K.kstrtou32_from_user buf 10).1)
    (i : Nat) (hi : i < total_steps K buf)
    (hok : ∀ j, j < i → K.pwm_apply_state j = 0) :
    (dutyCalls (driver_write K { pwm_steps := s0, trace := [] } buf).2.trace)[i]? =
      some (if i < total_steps K buf / 2 then i else total_steps K buf - 1 - i,
        total_steps K buf - 1) := by
  obtain ⟨n, _, _, hn, htr⟩ := dutyCalls_driver_write K s0 buf hp
  rw [htr, getElem?_map_range _ n i (hn i hok hi)]
  rfl

/-- Witness of C1: the text "10" gives 1000 steps over denominator 999; steps
0, 499, 500 and 999 get numerators 0, 499, 499 and 0. -/
theorem driver_write_step_duty_witness :
    total_steps (linuxKernel bootState hwAccept) ['1', '0'] = 1000 ∧
    (dutyCalls (driver_write (linuxKernel bootState hwAccept)
      { pwm_steps := 0, trace := [] } ['1', '0']).2.trace)[0]? = some (0, 999) ∧
    (dutyCalls (driver_write (linuxKernel bootState hwAccept)
      { pwm_steps := 0, trace := [] } ['1', '0']).2.trace)[499]? = some (499, 999) ∧
    (dutyCalls (driver_write (linuxKernel bootState hwAccept)
      { pwm_steps := 0, trace := [] } ['1', '0']).2.trace)[500]? = some (499, 999) ∧
    (dutyCalls (driver_write (linuxKernel bootState hwAccept)
      { pwm_steps := 0, trace := [] } ['1', '0']).2.trace)[999]? = some (0, 999) :=
  ⟨by decide,
   driver_write_step_duty (linuxKernel bootState hwAccept) 0 ['1', '0'] (by decide) 0
     (by decide) (fun _ _ => rfl),
   driver_write_step_duty (linuxKernel bootState hwAccept) 0 ['1', '0'] (by decide) 499
     (by decide) (fun _ _ => rfl),
   driver_write_step_duty (linuxKernel bootState hwAccept) 0 ['1', '0'] (by decide) 500
     (by decide) (fun _ _ => rfl),
   driver_write_step_duty (linuxKernel bootState hwAccept) 0 ['1', '0'] (by decide) 999
     (by decide) (fun _ _ => rfl)⟩

/-- C2, refuted as stated: for the 32-bit duration 42949673 the step count is
4, not the integer product 4294967300. -/
theorem steps_comp_overflow_example :
    42949673 < U32_MOD ∧
    (steps_comp { pwm_steps := 0, trace := [] } 42949673).pwm_steps = 4 ∧
    (steps_comp { pwm_steps := 0, trace := [] } 42949673).pwm_steps ≠ 42949673 * 100 := by
  decide

/-- C2, amended: after `steps_comp ms` the step count is `ms * 100` reduced
modulo `2 ^ 32`, whatever its value was before; it equals the integer product
`ms * 100` exactly when `ms ≤ 42949672`. -/
theorem steps_comp_modular (m : Machine) (ms : Nat) :
    (steps_comp m ms).pwm_steps = (ms * 100) % 2 ^ 32 ∧
    ((steps_comp m ms).pwm_steps = ms * 100 ↔ ms ≤ 42949672) := by
  rw [steps_comp_pwm_steps]
  unfold U32_MOD
  constructor
  · norm_num
  · omega

/-- C3: in a write whose text is accepted and whose hardware applies are all
accepted, the number of hardware applies (and of `duty_cycle_change` calls)
is exactly the step count; for a parsed duration of 0 it is zero. -/
theorem driver_write_apply_count (K : Kernel) (s0 : Nat) (buf : List Char)
    (hp : 0 ≤ (K.kstrtou32_from_user buf 10).1)
    (hok : ∀ j, j < total_steps K buf → K.pwm_apply_state j = 0) :
    applyCount (driver_write K { pwm_steps := s0, trace := [] } buf).2.trace
      = total_steps K buf ∧
    (dutyCalls (driver_write K { pwm_steps := s0, trace := [] } buf).2.trace).length
      = total_steps K buf ∧
    ((K.kstrtou32_from_user buf 10).2 = 0 →
      applyCount (driver_write K { pwm_steps := s0, trace := [] } buf).2.trace = 0) := by
  rw [driver_write_all_ok K s0 buf hp hok]
  have hcount : applyCount (Call.printk (Log.value_is
      ((K.kstrtou32_from_user buf 10).2 % U32_MOD) buf.length) ::
        okCalls K (total_steps K buf) 0 (total_steps K buf)) = total_steps K buf := by
    simp only [applyCount, applyCount_okCalls]
  refine ⟨hcount, ?_, ?_⟩
  · simp only [dutyCalls, dutyCalls_okCalls_zero, List.length_map, List.length_range]
  · intro hz
    have h0 : total_steps K buf = 0 := by
      simp only [total_steps, steps_comp_pwm_steps, hz, Nat.zero_mod, Nat.zero_mul]
    rw [hcount, h0]

/-- Witness of C3: the text "10" gives exactly 1000 hardware applies, and the
text "0" gives none. -/
theorem driver_write_apply_count_witness :
    applyCount (driver_write (linuxKernel bootState hwAccept)
      { pwm_steps := 7, trace := [] } ['1', '0']).2.trace = 1000 ∧
    applyCount (driver_write (linuxKernel bootState hwAccept)
      { pwm_steps := 7, trace := [] } ['0']).2.trace = 0 :=
  ⟨(driver_write_apply_count (linuxKernel bootState hwAccept) 7 ['1', '0'] (by decide)
      (fun _ _ => rfl)).1,
   (driver_write_apply_count (linuxKernel bootState hwAccept) 7 ['0'] (by decide)
      (fun _ _ => rfl)).2.2 (by decide)⟩

/-- C4: a write whose text the parser refuses (return code below 0) returns
a negative result, makes no hardware apply, computes no duty cycle, performs
no delay and leaves the step count alone. -/
theorem driver_write_refused_text (K : Kernel) (s0 : Nat) (buf : List Char)
    (hp : (K.kstrtou32_from_user buf 10).1 < 0) :
    (driver_write K { pwm_steps := s0, trace := [] } buf).1 < 0 ∧
    applyCount (driver_write K { pwm_steps := s0, trace := [] } buf).2.trace = 0 ∧
    dutyCalls (driver_write K { pwm_steps := s0, trace := [] } buf).2.trace = [] ∧
    delayCount (driver_write K { pwm_steps := s0, trace := [] } buf).2.trace = 0 ∧
    (driver_write K { pwm_steps := s0, trace := [] } buf).2.pwm_steps = s0 := by
  rw [driver_write_invalid K _ buf hp]
  simp [applyCount, dutyCalls, delayCount]

/-- Witness of C4: the texts "abc" (`-EINVAL`) and "4294967296" (`-ERANGE`) are
refused, and the writes return a negative result without any hardware apply
or delay. -/
theorem driver_write_refused_text_witness :
    (kstrtou32_from_user ['a', 'b', 'c'] 10).1 = -22 ∧
    (kstrtou32_from_user ['4', '2', '9', '4', '9', '6', '7', '2', '9', '6'] 10).1 = -34 ∧
    ((driver_write (linuxKernel bootState hwAccept)
        { pwm_steps := 7, trace := [] } ['a', 'b', 'c']).1 < 0 ∧
      applyCount (driver_write (linuxKernel bootState hwAccept)
        { pwm_steps := 7, trace := [] } ['a', 'b', 'c']).2.trace = 0 ∧
      dutyCalls (driver_write (linuxKernel bootState hwAccept)
        { pwm_steps := 7, trace := [] } ['a', 'b', 'c']).2.trace = [] ∧
      delayCount (driver_write (linuxKernel bootState hwAccept)
        { pwm_steps := 7, trace := [] } ['a', 'b', 'c']).2.trace = 0 ∧
      (driver_write (linuxKernel bootState hwAccept)
        { pwm_steps := 7, trace := [] } ['a', 'b', 'c']).2.pwm_steps = 7) ∧
    (driver_write (linuxKernel bootState hwAccept) { pwm_steps := 7, trace := [] }
        ['4', '2', '9', '4', '9', '6', '7', '2', '9', '6']).1 < 0 :=
  ⟨by decide, by decide,
   driver_write_refused_text (linuxKernel bootState hwAccept) 7 ['a', 'b', 'c'] (by decide),
   (driver_write_refused_text (linuxKernel bootState hwAccept) 7
      ['4', '2', '9', '4', '9', '6', '7', '2', '9', '6'] (by decide)).1⟩

/-- C5: a write whose text is accepted and whose hardware applies are all
accepted returns `count`, the length of its input. -/
theorem driver_write_returns_count (K : Kernel) (s0 : Nat) (buf : List Char)
    (hp : 0 ≤ (K.kstrtou32_from_user buf 10).1)
    (hok : ∀ j, j < total_steps K buf → K.pwm_apply_state j = 0) :
    (driver_write K { pwm_steps := s0, trace := [] } buf).1 = (buf.length : Int) := by
  rw [driver_write_all_ok K s0 buf hp hok]

/-- Witness of C5: the text "10" returns 2 and the text "0" returns 1. -/
theorem driver_write_returns_count_witness :
    (driver_write (linuxKernel bootState hwAccept)
      { pwm_steps := 0, trace := [] } ['1', '0']).1 = 2 ∧
    (driver_write (linuxKernel bootState hwAccept)
      { pwm_steps := 0, trace := [] } ['0']).1 = 1 :=
  ⟨driver_write_returns_count (linuxKernel bootState hwAccept) 0 ['1', '0'] (by decide)
      (fun _ _ => rfl),
   driver_write_returns_count (linuxKernel bootState hwAccept) 0 ['0'] (by decide)
      (fun _ _ => rfl)⟩

theorem acceptedApplies_first_fail (K : Kernel) (t : List Call) (k : Nat)
    (hcount : applyCount t = k + 1)
    (hok : ∀ j, j < k → K.pwm_apply_state j = 0) (hbad : K.pwm_apply_state k ≠ 0) :
    acceptedApplies K t = k := by
  have hpre : (List.range k).countP (fun n => decide (K.pwm_apply_state n = 0)) = k := by
    have h := (List.countP_eq_length
      (p := fun n => decide (K.pwm_apply_state n = 0)) (l := List.range k)).mpr
      (by
        intro a ha
        simp only [decide_eq_true_eq]
        exact hok a (List.mem_range.mp ha))
    rw [h, List.length_range]
  unfold acceptedApplies
  rw [hcount, List.range_succ, List.countP_append, hpre]
  simp [List.countP_cons, hbad]

/-- C6: in a write whose text is accepted, if the hardware apply of step `k`
is the first one refused, then exactly `k` applies were accepted, steps
`0 .. k` and no later one were attempted, exactly `k` delays were performed,
the refused apply is the last kernel call of the write (no delay follows
it), and the write returns a negative result. -/
theorem driver_write_first_refusal (K : Kernel) (s0 : Nat) (buf : List Char)
    (hp : 0 ≤ (K.kstrtou32_from_user buf 10).1)
    (k : Nat) (hk : k < total_steps K buf)
    (hok : ∀ j, j < k → K.pwm_apply_state j = 0) (hbad : K.pwm_apply_state k ≠ 0) :
    (driver_write K { pwm_steps := s0, trace := [] } buf).1 < 0 ∧
    acceptedApplies K (driver_write K { pwm_steps := s0, trace := [] } buf).2.trace = k ∧
    applyCount (driver_write K { pwm_steps := s0, trace := [] } buf).2.trace = k + 1 ∧
    (dutyCalls (driver_write K { pwm_steps := s0, trace := [] } buf).2.trace).length
      = k + 1 ∧
    delayCount (driver_write K { pwm_steps := s0, trace := [] } buf).2.trace = k ∧
    (driver_write K { pwm_steps := s0, trace := [] } buf).2.trace.getLast? =
      some (Call.pwm_apply_state (relState K PWM_PERIOD
        (rampValue (total_steps K buf) k) (total_steps K buf - 1))) := by
  rw [driver_write_first_fail K s0 buf hp k hk hok hbad]
  have hcount : applyCount (Call.printk (Log.value_is
      ((K.kstrtou32_from_user buf 10).2 % U32_MOD) buf.length) ::
        (okCalls K (total_steps K buf) 0 k ++ attemptCalls K (total_steps K buf) k))
      = k + 1 := by
    simp only [applyCount, applyCount_append, applyCount_okCalls, attemptCalls]
  refine ⟨?_, acceptedApplies_first_fail K _ k hcount hok hbad, hcount, ?_, ?_, ?_⟩
  · show (-1 : Int) < 0
    decide
  · simp only [dutyCalls, dutyCalls_refused, List.length_map, List.length_range]
  · simp only [delayCount, delayCount_append, delayCount_okCalls, attemptCalls, Nat.add_zero]
  · simp only [attemptCalls]
    rw [show ∀ (a b c : Call) (l : List Call), a :: (l ++ [b, c]) = (a :: l ++ [b]) ++ [c] by
      intro a b c l; simp]
    exact List.getLast?_concat _

/-- Witness of C6: with the text "10" and hardware refusing the apply of step 3,
three applies are accepted, four are made, three delays are performed and
the write returns a negative result. -/
theorem driver_write_first_refusal_witness :
    (driver_write (linuxKernel bootState (hwRefuseAt 3))
      { pwm_steps := 0, trace := [] } ['1', '0']).1 < 0 ∧
    acceptedApplies (linuxKernel bootState (hwRefuseAt 3))
      (driver_write (linuxKernel bootState (hwRefuseAt 3))
        { pwm_steps := 0, trace := [] } ['1', '0']).2.trace = 3 ∧
    applyCount (driver_write (linuxKernel bootState (hwRefuseAt 3))
      { pwm_steps := 0, trace := [] } ['1', '0']).2.trace = 3 + 1 ∧
    (dutyCalls (driver_write (linuxKernel bootState (hwRefuseAt 3))
      { pwm_steps := 0, trace := [] } ['1', '0']).2.trace).length = 3 + 1 ∧
    delayCount (driver_write (linuxKernel bootState (hwRefuseAt 3))
      { pwm_steps := 0, trace := [] } ['1', '0']).2.trace = 3 ∧
    (driver_write (linuxKernel bootState (hwRefuseAt 3))
      { pwm_steps := 0, trace := [] } ['1', '0']).2.trace.getLast? =
      some (Call.pwm_apply_state
        { period := 1000000, duty_cycle := 3003, polarity := false, enabled := true }) :=
  driver_write_first_refusal (linuxKernel bootState (hwRefuseAt 3)) 0 ['1', '0'] (by decide) 3
    (by decide) (by decide) (by decide)

theorem relErrorCount_append (s t : List Call) :
    relErrorCount (s ++ t) = relErrorCount s + relErrorCount t := by
  induction s with
  | nil => simp [relErrorCount]
  | cons c s ih =>
    cases c with
    | printk msg =>
      cases msg <;> simp [relErrorCount, ih]
      omega
    | pwm_set_relative_duty_cycle d sc => simp [relErrorCount, ih]
    | pwm_apply_state st => simp [relErrorCount, ih]
    | udelay us => simp [relErrorCount, ih]

theorem relErrorCount_okCalls (K : Kernel) (steps : Nat) (n : Nat) :
    ∀ i, relErrorCount (okCalls K steps i n) = 0 := by
  induction n with
  | zero => intro i; rfl
  | succ n ih =>
    intro i
    rw [okCalls, relErrorCount_append, ih]
    simp only [attemptCalls, List.cons_append, List.nil_append, relErrorCount]

/-- The ramp is symmetric: counter `i` and its mirror get the same numerator. -/
theorem rampValue_mirror (steps i : Nat) (hi : i < steps) :
    rampValue steps (steps - 1 - i) = rampValue steps i := by
  unfold rampValue
  split <;> split <;> omega

/-- C7: in a write whose text is accepted and whose hardware applies are all
accepted, a numerator is applied at every step `i` below the step count and
it equals the one applied at step `total_steps - 1 - i`; the sequence of
applied numerators reads the same in both directions. -/
theorem driver_write_numerators_symmetric (K : Kernel) (s0 : Nat) (buf : List Char)
    (hp : 0 ≤ (K.kstrtou32_from_user buf 10).1)
    (hok : ∀ j, j < total_steps K buf → K.pwm_apply_state j = 0) :
    (∀ i, i < total_steps K buf →
      (((dutyCalls (driver_write K { pwm_steps := s0, trace := [] } buf).2.trace).map
        Prod.fst)[i]?).isSome = true ∧
      ((dutyCalls (driver_write K { pwm_steps := s0, trace := [] } buf).2.trace).map
        Prod.fst)[total_steps K buf - 1 - i]? =
      ((dutyCalls (driver_write K { pwm_steps := s0, trace := [] } buf).2.trace).map
        Prod.fst)[i]?) ∧
    ((dutyCalls (driver_write K { pwm_steps := s0, trace := [] } buf).2.trace).map
        Prod.fst).reverse =
      (dutyCalls (driver_write K { pwm_steps := s0, trace := [] } buf).2.trace).map
        Prod.fst := by
  rw [driver_write_all_ok K s0 buf hp hok]
  have hnums : (dutyCalls (Call.printk (Log.value_is
      ((K.kstrtou32_from_user buf 10).2 % U32_MOD) buf.length) ::
        okCalls K (total_steps K buf) 0 (total_steps K buf))).map Prod.fst =
      (List.range (total_steps K buf)).map (rampValue (total_steps K buf)) := by
    simp only [dutyCalls, dutyCalls_okCalls_zero, List.map_map]
    rfl
  simp only [hnums]
  generalize total_steps K buf = steps
  have hpoint : ∀ i, i < steps →
      ((List.range steps).map (rampValue steps))[steps - 1 - i]? =
        ((List.range steps).map (rampValue steps))[i]? := by
    intro i hi
    rw [getElem?_map_range _ steps i hi, getElem?_map_range _ steps _ (by omega),
      rampValue_mirror steps i hi]
  constructor
  · intro i hi
    refine ⟨?_, hpoint i hi⟩
    rw [getElem?_map_range _ steps i hi]
    rfl
  · apply List.ext_getElem?
    intro i
    by_cases hi : i < steps
    · rw [List.getElem?_reverse (by simpa using hi)]
      simp only [List.length_map, List.length_range]
      exact hpoint i hi
    · rw [List.getElem?_eq_none (by simpa using hi), List.getElem?_eq_none (by simpa using hi)]

/-- Witness of C7: with the text "10" a numerator is applied at step 3, the
one at step 996 equals it, and the numerator sequence equals its own
reverse. -/
theorem driver_write_numerators_symmetric_witness :
    ((((dutyCalls (driver_write (linuxKernel bootState hwAccept)
        { pwm_steps := 0, trace := [] } ['1', '0']).2.trace).map Prod.fst)[3]?).isSome = true ∧
      ((dutyCalls (driver_write (linuxKernel bootState hwAccept)
        { pwm_steps := 0, trace := [] } ['1', '0']).2.trace).map Prod.fst)[996]? =
      ((dutyCalls (driver_write (linuxKernel bootState hwAccept)
        { pwm_steps := 0, trace := [] } ['1', '0']).2.trace).map Prod.fst)[3]?) ∧
    ((dutyCalls (driver_write (linuxKernel bootState hwAccept)
        { pwm_steps := 0, trace := [] } ['1', '0']).2.trace).map Prod.fst).reverse =
      (dutyCalls (driver_write (linuxKernel bootState hwAccept)
        { pwm_steps := 0, trace := [] } ['1', '0']).2.trace).map Prod.fst :=
  ⟨(driver_write_numerators_symmetric (linuxKernel bootState hwAccept) 0 ['1', '0']
      (by decide) (fun _ _ => rfl)).1 3 (by decide),
   (driver_write_numerators_symmetric (linuxKernel bootState hwAccept) 0 ['1', '0']
      (by decide) (fun _ _ => rfl)).2⟩

/-- C8: whatever the text, the initial step count and the hardware answers,
every numerator and denominator pair a write hands to
`pwm_set_relative_duty_cycle` has the denominator `pwm_steps - 1`, which is not
zero, and a numerator not above it, so that the helper accepts the pair; the
error branch of `duty_cycle_change` is never taken. -/
theorem driver_write_duty_in_range (K : Kernel) (s0 : Nat) (buf : List Char) :
    (∀ d s, (d, s) ∈ dutyCalls (driver_write K { pwm_steps := s0, trace := [] } buf).2.trace →
      s = (driver_write K { pwm_steps := s0, trace := [] } buf).2.pwm_steps - 1 ∧
      s ≠ 0 ∧ d ≤ s ∧ ∀ st, (pwm_set_relative_duty_cycle st d s).1 = 0) ∧
    relErrorCount (driver_write K { pwm_steps := s0, trace := [] } buf).2.trace = 0 := by
  by_cases hp : (K.kstrtou32_from_user buf 10).1 < 0
  · rw [driver_write_invalid K _ buf hp]
    simp [dutyCalls, relErrorCount]
  · have hp' : 0 ≤ (K.kstrtou32_from_user buf 10).1 := by omega
    have h4 := total_steps_mod_four K buf
    have hfacts : ∀ n, n ≤ total_steps K buf → ∀ d s,
        (d, s) ∈ (List.range n).map
          (fun j => (rampValue (total_steps K buf) j, total_steps K buf - 1)) →
        s = total_steps K buf - 1 ∧ s ≠ 0 ∧ d ≤ s ∧
          ∀ st, (pwm_set_relative_duty_cycle st d s).1 = 0 := by
      intro n hn d s hmem
      obtain ⟨j, hj, hjeq⟩ := List.mem_map.mp hmem
      have hjn := List.mem_range.mp hj
      have hd : d = rampValue (total_steps K buf) j := (congrArg Prod.fst hjeq).symm
      have hs : s = total_steps K buf - 1 := (congrArg Prod.snd hjeq).symm
      have hle := rampValue_le (total_steps K buf) j (by omega)
      have hcond : ¬ (s = 0 ∨ d > s) := by omega
      refine ⟨hs, by omega, by omega, fun st => ?_⟩
      simp only [pwm_set_relative_duty_cycle, hcond, if_false]
    rcases all_ok_or_first_fail K.pwm_apply_state (total_steps K buf) with
      hall | ⟨k, hk, hok, hbad⟩
    · rw [driver_write_all_ok K s0 buf hp' hall]
      refine ⟨?_, ?_⟩
      · simp only [dutyCalls, dutyCalls_okCalls_zero]
        exact hfacts _ (le_refl _)
      · simp only [relErrorCount, relErrorCount_okCalls]
    · rw [driver_write_first_fail K s0 buf hp' k hk hok hbad]
      refine ⟨?_, ?_⟩
      · simp only [dutyCalls, dutyCalls_refused]
        exact hfacts _ (by omega)
      · simp only [relErrorCount, relErrorCount_append, relErrorCount_okCalls, attemptCalls]

/-- Witness of C8: the text "42949673" makes the step count wrap to 4; the pair
(1, 3) is handed to `pwm_set_relative_duty_cycle` and is accepted. -/
theorem driver_write_duty_in_range_witness :
    (1, 3) ∈ dutyCalls (driver_write (linuxKernel bootState hwAccept)
      { pwm_steps := 0, trace := [] } ['4', '2', '9', '4', '9', '6', '7', '3']).2.trace ∧
    (3 = (driver_write (linuxKernel bootState hwAccept) { pwm_steps := 0, trace := [] }
        ['4', '2', '9', '4', '9', '6', '7', '3']).2.pwm_steps - 1 ∧
      3 ≠ 0 ∧ 1 ≤ 3 ∧ (pwm_set_relative_duty_cycle bootState 1 3).1 = 0) :=
  have h := (driver_write_duty_in_range (linuxKernel bootState hwAccept) 0
      ['4', '2', '9', '4', '9', '6', '7', '3']).1 1 3 (by decide)
  ⟨by decide, h.1, h.2.1, h.2.2.1, h.2.2.2 bootState⟩

/-! ## Claims about the load and unload hooks -/

/-- A load succeeds exactly when the driver's five checks all pass. -/
theorem ModuleInit_eq_zero_iff (E : InitEnv) (g : Globals) :
    (ModuleInit E g).1 = 0 ↔
      ¬ E.alloc_chrdev_region < 0 ∧ E.class_create ≠ 0 ∧ E.device_create ≠ 0 ∧
        E.cdev_add ≠ -1 ∧ E.pwm_request ≠ 0 := by
  unfold ModuleInit
  by_cases h1 : E.alloc_chrdev_region < 0
  · simp [h1]
  by_cases h2 : E.class_create = 0
  · simp [h1, h2]
  by_cases h3 : E.device_create = 0
  · simp [h1, h2, h3]
  by_cases h4 : E.cdev_add = -1
  · simp [h1, h2, h3, h4]
  by_cases h5 : E.pwm_request = 0
  · simp [h1, h2, h3, h4, h5]
  · simp [h1, h2, h3, h4, h5]

/-- When the device-number allocation, the class creation, the device-file
creation or the cdev registration fails, `ModuleInit` returns -1 and has
released what it had acquired, in reverse order. -/
theorem ModuleInit_unwinds_up_to_cdev (E : InitEnv) (g : Globals)
    (h : E.alloc_chrdev_region < 0 ∨ E.class_create = 0 ∨ E.device_create = 0 ∨
      E.cdev_add = -1) :
    (ModuleInit E g).1 = -1 ∧
      released (ModuleInit E g).2.2 = (acquired (ModuleInit E g).2.2).reverse := by
  unfold ModuleInit
  by_cases h1 : E.alloc_chrdev_region < 0
  · simp [h1, acquired, released, acquires, releases]
  by_cases h2 : E.class_create = 0
  · simp [h1, h2, acquired, released, acquires, releases, ClassError]
  by_cases h3 : E.device_create = 0
  · simp [h1, h2, h3, acquired, released, acquires, releases, ClassError, FileError]
  by_cases h4 : E.cdev_add = -1
  · simp [h1, h2, h3, h4, acquired, released, acquires, releases, ClassError, FileError,
      AddError]
  · omega

/-- C9, at the input that breaks it: when everything up to `cdev_add` succeeds
and `pwm_request` returns `NULL`, `ModuleInit` returns -1 after releasing the
device file, the class and the device-number region only; the registered cdev
was acquired and is not released, so the releases are not the reverse of the
acquisitions. -/
theorem ModuleInit_pwm_failure_keeps_cdev :
    (ModuleInit envNoPwm noGlobals).1 = -1 ∧
    acquired (ModuleInit envNoPwm noGlobals).2.2 =
      [Resource.region, Resource.cls, Resource.file, Resource.cdev] ∧
    released (ModuleInit envNoPwm noGlobals).2.2 =
      [Resource.file, Resource.cls, Resource.region] ∧
    Resource.cdev ∉ released (ModuleInit envNoPwm noGlobals).2.2 ∧
    LifeCall.cdev_del ∉ (ModuleInit envNoPwm noGlobals).2.2 ∧
    released (ModuleInit envNoPwm noGlobals).2.2 ≠
      (acquired (ModuleInit envNoPwm noGlobals).2.2).reverse := by
  decide

/-- The same holds for every load in which `pwm_request` is the step that
fails: the cdev is acquired and never released. -/
theorem ModuleInit_pwm_failure_general (E : InitEnv) (g : Globals)
    (h1 : ¬ E.alloc_chrdev_region < 0) (h2 : E.class_create ≠ 0) (h3 : E.device_create ≠ 0)
    (h4 : E.cdev_add ≠ -1) (h5 : E.pwm_request = 0) :
    (ModuleInit E g).1 = -1 ∧
    Resource.cdev ∈ acquired (ModuleInit E g).2.2 ∧
    Resource.cdev ∉ released (ModuleInit E g).2.2 := by
  unfold ModuleInit
  simp [h1, h2, h3, h4, h5, acquired, released, acquires, releases, ClassError, FileError,
    AddError]

/-- C10: after a successful `ModuleInit`, which acquires the region, the class,
the device file, the cdev and the channel in this order, `ModuleExit` calls
`pwm_disable`, then `pwm_free`, `cdev_del`, `device_destroy`, `class_destroy` and
`unregister_chrdev_region` on the handles `ModuleInit` stored, so that the
resources are released in exactly the reverse of the order of acquisition. -/
theorem ModuleExit_reverses_ModuleInit (E : InitEnv) (g : Globals)
    (h : (ModuleInit E g).1 = 0) :
    acquired (ModuleInit E g).2.2 =
      [Resource.region, Resource.cls, Resource.file, Resource.cdev, Resource.channel] ∧
    ModuleExit (ModuleInit E g).2.1 =
      [LifeCall.pwm_disable E.pwm_request,
       LifeCall.pwm_free E.pwm_request,
       LifeCall.cdev_del,
       LifeCall.device_destroy E.class_create E.device_nr,
       LifeCall.class_destroy E.class_create,
       LifeCall.unregister_chrdev_region E.device_nr,
       LifeCall.printk LifeLog.goodbye] ∧
    released (ModuleExit (ModuleInit E g).2.1) =
      (acquired (ModuleInit E g).2.2).reverse := by
  obtain ⟨h1, h2, h3, h4, h5⟩ := (ModuleInit_eq_zero_iff E g).mp h
  unfold ModuleInit
  simp [h1, h2, h3, h4, h5, acquired, released, acquires, releases, ModuleExit]

/-- Witness of C10: a load in which every acquisition succeeds. -/
theorem ModuleExit_reverses_ModuleInit_witness :
    (ModuleInit envAllOk noGlobals).1 = 0 ∧
    acquired (ModuleInit envAllOk noGlobals).2.2 =
      [Resource.region, Resource.cls, Resource.file, Resource.cdev, Resource.channel] ∧
    ModuleExit (ModuleInit envAllOk noGlobals).2.1 =
      [LifeCall.pwm_disable 3,
       LifeCall.pwm_free 3,
       LifeCall.cdev_del,
       LifeCall.device_destroy 1 240,
       LifeCall.class_destroy 1,
       LifeCall.unregister_chrdev_region 240,
       LifeCall.printk LifeLog.goodbye] ∧
    released (ModuleExit (ModuleInit envAllOk noGlobals).2.1) =
      (acquired (ModuleInit envAllOk noGlobals).2.2).reverse :=
  ⟨by decide, ModuleExit_reverses_ModuleInit envAllOk noGlobals (by decide)⟩

/-! ## Further claims about the write path -/

/-- The three ways a write can go: the text is refused; the text is accepted
and every apply is accepted; the text is accepted and some apply is the first
refused one. -/
theorem driver_write_cases (K : Kernel) (s0 : Nat) (buf : List Char) :
    ((K.kstrtou32_from_user buf 10).1 < 0 ∧
      driver_write K { pwm_steps := s0, trace := [] } buf =
        (-1, { pwm_steps := s0, trace := [Call.printk Log.invalid_value] })) ∨
    (0 ≤ (K.kstrtou32_from_user buf 10).1 ∧
      (∀ j, j < total_steps K buf → K.pwm_apply_state j = 0) ∧
      driver_write K { pwm_steps := s0, trace := [] } buf =
        ((buf.length : Int),
          { pwm_steps := total_steps K buf
            trace := Call.printk
                (Log.value_is ((K.kstrtou32_from_user buf 10).2 % U32_MOD) buf.length) ::
              okCalls K (total_steps K buf) 0 (total_steps K buf) })) ∨
    (0 ≤ (K.kstrtou32_from_user buf 10).1 ∧
      ∃ k, k < total_steps K buf ∧ (∀ j, j < k → K.pwm_apply_state j = 0) ∧
        K.pwm_apply_state k ≠ 0 ∧
        driver_write K { pwm_steps := s0, trace := [] } buf =
          (-1,
            { pwm_steps := total_steps K buf
              trace := Call.printk
                  (Log.value_is ((K.kstrtou32_from_user buf 10).2 % U32_MOD) buf.length) ::
                (okCalls K (total_steps K buf) 0 k ++
                  attemptCalls K (total_steps K buf) k) })) := by
  by_cases hp : (K.kstrtou32_from_user buf 10).1 < 0
  · left
    refine ⟨hp, ?_⟩
    rw [driver_write_invalid K _ buf hp]
    simp only [List.nil_append]
  · have hp' : 0 ≤ (K.kstrtou32_from_user buf 10).1 := by omega
    right
    rcases all_ok_or_first_fail K.pwm_apply_state (total_steps K buf) with
      hall | ⟨k, hk, hok, hbad⟩
    · left
      exact ⟨hp', hall, driver_write_all_ok K s0 buf hp' hall⟩
    · right
      exact ⟨hp', k, hk, hok, hbad, driver_write_first_fail K s0 buf hp' k hk hok hbad⟩

theorem appliedStates_okCalls (K : Kernel) (steps : Nat) (n : Nat) :
    ∀ i, appliedStates (okCalls K steps i n) =
      (List.range' i n).map
        (fun j => relState K PWM_PERIOD (rampValue steps j) (steps - 1)) := by
  induction n with
  | zero => intro i; rfl
  | succ n ih =>
    intro i
    rw [okCalls, appliedStates_append, ih]
    simp [attemptCalls, appliedStates, List.range'_succ]

theorem appliedStates_attemptCalls (K : Kernel) (steps i : Nat) :
    appliedStates (attemptCalls K steps i) =
      [relState K PWM_PERIOD (rampValue steps i) (steps - 1)] := rfl

/-- Every state a write hands to `pwm_apply_state` is one that `duty_cycle_change`
builds with period `PWM_PERIOD`. -/
theorem appliedStates_driver_write (K : Kernel) (s0 : Nat) (buf : List Char)
    (st : pwm_state)
    (h : st ∈ appliedStates (driver_write K { pwm_steps := s0, trace := [] } buf).2.trace) :
    ∃ d s, st = relState K PWM_PERIOD d s := by
  rcases driver_write_cases K s0 buf with ⟨_, heq⟩ | ⟨_, _, heq⟩ | ⟨_, k, _, _, _, heq⟩
  · rw [heq] at h
    simp [appliedStates] at h
  · rw [heq] at h
    simp only [appliedStates, appliedStates_okCalls, List.mem_map] at h
    obtain ⟨j, _, hj⟩ := h
    exact ⟨_, _, hj.symm⟩
  · rw [heq] at h
    simp only [appliedStates, appliedStates_append, appliedStates_okCalls,
      appliedStates_attemptCalls, List.mem_append, List.mem_map, List.mem_singleton] at h
    rcases h with ⟨j, _, hj⟩ | h
    · exact ⟨_, _, hj.symm⟩
    · exact ⟨_, _, h⟩

theorem appliedStates_take (t : List Call) :
    ∀ (n : Nat) (st : pwm_state), st ∈ appliedStates (t.take n) → st ∈ appliedStates t := by
  induction t with
  | nil => intro n st h; simpa using h
  | cons c t ih =>
    intro n st h
    cases n with
    | zero => simp [appliedStates] at h
    | succ n =>
      cases c with
      | pwm_apply_state x =>
        simp only [List.take_succ_cons, appliedStates, List.mem_cons] at h ⊢
        rcases h with h | h
        · exact Or.inl h
        · exact Or.inr (ih n st h)
      | printk msg => exact ih n st (by simpa [appliedStates] using h)
      | pwm_set_relative_duty_cycle d sc => exact ih n st (by simpa [appliedStates] using h)
      | udelay us => exact ih n st (by simpa [appliedStates] using h)

/-- A property of the channel that every applied state has is kept by the
channel through a trace. -/
theorem channelAfter_invariant (K : Kernel) (P : pwm_state → Prop) (t : List Call) :
    ∀ (n : Nat) (cur : pwm_state), P cur → (∀ st, st ∈ appliedStates t → P st) →
      P (channelAfter K n cur t) := by
  induction t with
  | nil => intro n cur hcur _; exact hcur
  | cons c t ih =>
    intro n cur hcur hall
    cases c with
    | pwm_apply_state x =>
      simp only [channelAfter]
      apply ih
      · split
        · exact hall x (by simp [appliedStates])
        · exact hcur
      · intro st hst
        exact hall st (by simp [appliedStates, hst])
    | printk msg =>
      simp only [channelAfter]
      exact ih n cur hcur (fun st hst => hall st (by simpa [appliedStates] using hst))
    | pwm_set_relative_duty_cycle d sc =>
      simp only [channelAfter]
      exact ih n cur hcur (fun st hst => hall st (by simpa [appliedStates] using hst))
    | udelay us =>
      simp only [channelAfter]
      exact ih n cur hcur (fun st hst => hall st (by simpa [appliedStates] using hst))

/-- C11: whatever the text, the earlier step count and the hardware answers,
every state a write hands to `pwm_apply_state` has `enabled = true` and
`period = PWM_PERIOD` and differs from the state built for another step in
its duty cycle only; hence a channel that is enabled (with period
`PWM_PERIOD`) before the write is so after every kernel call of the write and
at its end. -/
theorem driver_write_keeps_enabled (K : Kernel) (s0 : Nat) (buf : List Char) :
    (∀ st, st ∈ appliedStates (driver_write K { pwm_steps := s0, trace := [] } buf).2.trace →
      st.enabled = true ∧ st.period = PWM_PERIOD ∧
        st = { K.pwm_init_state with
          enabled := true, period := PWM_PERIOD, duty_cycle := st.duty_cycle }) ∧
    (∀ cur n, cur.enabled = true →
      (channelAfter K 0 cur
        ((driver_write K { pwm_steps := s0, trace := [] } buf).2.trace.take n)).enabled
          = true) ∧
    (∀ cur n, cur.period = PWM_PERIOD →
      (channelAfter K 0 cur
        ((driver_write K { pwm_steps := s0, trace := [] } buf).2.trace.take n)).period
          = PWM_PERIOD) ∧
    (∀ cur, cur.enabled = true →
      (channelAfter K 0 cur
        (driver_write K { pwm_steps := s0, trace := [] } buf).2.trace).enabled = true) := by
  have hst : ∀ st,
      st ∈ appliedStates (driver_write K { pwm_steps := s0, trace := [] } buf).2.trace →
      st.enabled = true ∧ st.period = PWM_PERIOD ∧
        st = { K.pwm_init_state with
          enabled := true, period := PWM_PERIOD, duty_cycle := st.duty_cycle } := by
    intro st h
    obtain ⟨d, s, hds⟩ := appliedStates_driver_write K s0 buf st h
    subst hds
    exact ⟨rfl, rfl, rfl⟩
  refine ⟨hst, ?_, ?_, ?_⟩
  · intro cur n hcur
    exact channelAfter_invariant K (fun x => x.enabled = true) _ 0 cur hcur
      (fun st h => (hst st (appliedStates_take _ n st h)).1)
  · intro cur n hcur
    exact channelAfter_invariant K (fun x => x.period = PWM_PERIOD) _ 0 cur hcur
      (fun st h => (hst st (appliedStates_take _ n st h)).2.1)
  · intro cur hcur
    exact channelAfter_invariant K (fun x => x.enabled = true) _ 0 cur hcur
      (fun st h => (hst st h).1)

/-- Witness of C11: the text "42949673" gives 4 steps; the state applied at
step 1 is enabled with period 1000000, and a channel enabled before the
write is enabled after the first 6 kernel calls and at the end. -/
theorem driver_write_keeps_enabled_witness :
    ({ period := 1000000, duty_cycle := 333333, polarity := false, enabled := true } :
        pwm_state) ∈
      appliedStates (driver_write (linuxKernel bootState hwAccept)
        { pwm_steps := 0, trace := [] } ['4', '2', '9', '4', '9', '6', '7', '3']).2.trace ∧
    (channelAfter (linuxKernel bootState hwAccept) 0 bootState
      ((driver_write (linuxKernel bootState hwAccept) { pwm_steps := 0, trace := [] }
        ['4', '2', '9', '4', '9', '6', '7', '3']).2.trace.take 6)).enabled = true ∧
    (channelAfter (linuxKernel bootState hwAccept) 0 bootState
      ((driver_write (linuxKernel bootState hwAccept) { pwm_steps := 0, trace := [] }
        ['4', '2', '9', '4', '9', '6', '7', '3']).2.trace.take 6)).period = PWM_PERIOD ∧
    (channelAfter (linuxKernel bootState hwAccept) 0 bootState
      (driver_write (linuxKernel bootState hwAccept) { pwm_steps := 0, trace := [] }
        ['4', '2', '9', '4', '9', '6', '7', '3']).2.trace).enabled = true :=
  ⟨by decide,
   (driver_write_keeps_enabled (linuxKernel bootState hwAccept) 0
      ['4', '2', '9', '4', '9', '6', '7', '3']).2.1 bootState 6 (by decide),
   (driver_write_keeps_enabled (linuxKernel bootState hwAccept) 0
      ['4', '2', '9', '4', '9', '6', '7', '3']).2.2.1 bootState 6 (by decide),
   (driver_write_keeps_enabled (linuxKernel bootState hwAccept) 0
      ['4', '2', '9', '4', '9', '6', '7', '3']).2.2.2 bootState (by decide)⟩

/-- C12: the return value of a write and the kernel calls it makes, hence the
numerator and denominator pairs it applies, do not depend on the value
`pwm_steps` held before the write, whatever earlier write left it: the same
text with the same kernel answers gives the same outcome from any two
initial values. -/
theorem driver_write_ignores_old_steps (K : Kernel) (s0 s1 : Nat) (buf : List Char) :
    (driver_write K { pwm_steps := s0, trace := [] } buf).1 =
      (driver_write K { pwm_steps := s1, trace := [] } buf).1 ∧
    (driver_write K { pwm_steps := s0, trace := [] } buf).2.trace =
      (driver_write K { pwm_steps := s1, trace := [] } buf).2.trace ∧
    dutyCalls (driver_write K { pwm_steps := s0, trace := [] } buf).2.trace =
      dutyCalls (driver_write K { pwm_steps := s1, trace := [] } buf).2.trace ∧
    (∀ (K1 K2 : Kernel) (buf1 buf2 : List Char),
      (driver_write K
        { pwm_steps := (driver_write K1 { pwm_steps := s0, trace := [] } buf1).2.pwm_steps
          trace := [] } buf).1 =
      (driver_write K
        { pwm_steps := (driver_write K2 { pwm_steps := s1, trace := [] } buf2).2.pwm_steps
          trace := [] } buf).1 ∧
      (driver_write K
        { pwm_steps := (driver_write K1 { pwm_steps := s0, trace := [] } buf1).2.pwm_steps
          trace := [] } buf).2.trace =
      (driver_write K
        { pwm_steps := (driver_write K2 { pwm_steps := s1, trace := [] } buf2).2.pwm_steps
          trace := [] } buf).2.trace) := by
  have key : ∀ a b : Nat,
      (driver_write K { pwm_steps := a, trace := [] } buf).1 =
        (driver_write K { pwm_steps := b, trace := [] } buf).1 ∧
      (driver_write K { pwm_steps := a, trace := [] } buf).2.trace =
        (driver_write K { pwm_steps := b, trace := [] } buf).2.trace := by
    intro a b
    by_cases hp : (K.kstrtou32_from_user buf 10).1 < 0
    · rw [driver_write_invalid K _ buf hp, driver_write_invalid K _ buf hp]
      exact ⟨rfl, rfl⟩
    · have hp' : 0 ≤ (K.kstrtou32_from_user buf 10).1 := by omega
      rw [driver_write_parsed K a buf hp', driver_write_parsed K b buf hp']
      exact ⟨rfl, rfl⟩
  refine ⟨(key s0 s1).1, (key s0 s1).2, by rw [(key s0 s1).2], ?_⟩
  intro K1 K2 buf1 buf2
  exact key _ _

/-- The three kernel calls of iteration `s + i` inside a run of `n` successful
iterations starting at counter `s`. -/
theorem okCalls_getElem (K : Kernel) (steps : Nat) (n : Nat) :
    ∀ (s i : Nat), i < n →
      (okCalls K steps s n)[3 * i]? =
        some (Call.pwm_set_relative_duty_cycle (rampValue steps (s + i)) (steps - 1)) ∧
      (okCalls K steps s n)[3 * i + 1]? =
        some (Call.pwm_apply_state
          (relState K PWM_PERIOD (rampValue steps (s + i)) (steps - 1))) ∧
      (okCalls K steps s n)[3 * i + 2]? = some (Call.udelay PWM_DEFAULT_DELAY) := by
  induction n with
  | zero => intro s i hi; omega
  | succ n ih =>
    intro s i hi
    cases i with
    | zero => simp [okCalls, attemptCalls]
    | succ i =>
      have h := ih (s + 1) i (by omega)
      rw [show s + 1 + i = s + (i + 1) by omega] at h
      have key : ∀ m, (okCalls K steps s (n + 1))[m + 3]? = (okCalls K steps (s + 1) n)[m]? := by
        intro m
        simp only [okCalls, attemptCalls, List.cons_append, List.nil_append,
          show m + 3 = m + 1 + 1 + 1 by omega, List.getElem?_cons_succ]
      refine ⟨?_, ?_, ?_⟩
      · rw [show 3 * (i + 1) = 3 * i + 3 by omega, key]
        exact h.1
      · rw [show 3 * (i + 1) + 1 = 3 * i + 1 + 3 by omega, key]
        exact h.2.1
      · rw [show 3 * (i + 1) + 2 = 3 * i + 2 + 3 by omega, key]
        exact h.2.2

theorem length_okCalls (K : Kernel) (steps : Nat) (n : Nat) :
    ∀ i, (okCalls K steps i n).length = 3 * n := by
  induction n with
  | zero => intro i; rfl
  | succ n ih =>
    intro i
    simp only [okCalls, attemptCalls, List.cons_append, List.nil_append, List.length_cons, ih]
    omega

theorem acceptedApplies_all_ok (K : Kernel) (t : List Call) (n : Nat)
    (hcount : applyCount t = n) (hok : ∀ j, j < n → K.pwm_apply_state j = 0) :
    acceptedApplies K t = n := by
  have h := (List.countP_eq_length
    (p := fun n => decide (K.pwm_apply_state n = 0)) (l := List.range n)).mpr
    (by
      intro a ha
      simp only [decide_eq_true_eq]
      exact hok a (List.mem_range.mp ha))
  unfold acceptedApplies
  rw [hcount, h, List.length_range]

/-- In every write, the number of delays equals the number of accepted
hardware applies, and each delay lasts `PWM_DEFAULT_DELAY` microseconds. -/
theorem delayCount_eq_acceptedApplies (K : Kernel) (s0 : Nat) (buf : List Char) :
    delayCount (driver_write K { pwm_steps := s0, trace := [] } buf).2.trace =
      acceptedApplies K (driver_write K { pwm_steps := s0, trace := [] } buf).2.trace ∧
    delayTotal (driver_write K { pwm_steps := s0, trace := [] } buf).2.trace =
      delayCount (driver_write K { pwm_steps := s0, trace := [] } buf).2.trace *
        PWM_DEFAULT_DELAY := by
  rcases driver_write_cases K s0 buf with
    ⟨_, heq⟩ | ⟨_, hall, heq⟩ | ⟨_, k, _, hok, hbad, heq⟩
  · rw [heq]
    simp [delayCount, delayTotal, acceptedApplies, applyCount]
  · rw [heq]
    have hc : applyCount (Call.printk (Log.value_is
        ((K.kstrtou32_from_user buf 10).2 % U32_MOD) buf.length) ::
          okCalls K (total_steps K buf) 0 (total_steps K buf)) = total_steps K buf := by
      simp only [applyCount, applyCount_okCalls]
    rw [acceptedApplies_all_ok K _ _ hc hall]
    simp only [delayCount, delayTotal, delayCount_okCalls, delayTotal_okCalls, and_self]
  · rw [heq]
    have hc : applyCount (Call.printk (Log.value_is
        ((K.kstrtou32_from_user buf 10).2 % U32_MOD) buf.length) ::
          (okCalls K (total_steps K buf) 0 k ++ attemptCalls K (total_steps K buf) k))
        = k + 1 := by
      simp only [applyCount, applyCount_append, applyCount_okCalls, attemptCalls]
    rw [acceptedApplies_first_fail K _ k hc hok hbad]
    simp only [delayCount, delayTotal, delayCount_append, delayTotal_append,
      delayCount_okCalls, delayTotal_okCalls, attemptCalls, Nat.add_zero, and_self]

/-- C15: in every write the number of `udelay` calls equals the number of
accepted hardware applies and each lasts 10 microseconds; in a write whose
text is accepted and whose applies are all accepted, the apply of step `i`
is immediately followed by `udelay(PWM_DEFAULT_DELAY)`, which immediately
precedes the duty-cycle computation of step `i + 1`, and the write makes
exactly `total_steps` delays, `total_steps * 10` microseconds in all. -/
theorem driver_write_delays (K : Kernel) (s0 : Nat) (buf : List Char) :
    PWM_DEFAULT_DELAY = 10 ∧
    delayCount (driver_write K { pwm_steps := s0, trace := [] } buf).2.trace =
      acceptedApplies K (driver_write K { pwm_steps := s0, trace := [] } buf).2.trace ∧
    delayTotal (driver_write K { pwm_steps := s0, trace := [] } buf).2.trace =
      delayCount (driver_write K { pwm_steps := s0, trace := [] } buf).2.trace * 10 ∧
    (0 ≤ (K.kstrtou32_from_user buf 10).1 →
      (∀ j, j < total_steps K buf → K.pwm_apply_state j = 0) →
      delayCount (driver_write K { pwm_steps := s0, trace := [] } buf).2.trace
        = total_steps K buf ∧
      delayTotal (driver_write K { pwm_steps := s0, trace := [] } buf).2.trace
        = total_steps K buf * 10 ∧
      (driver_write K { pwm_steps := s0, trace := [] } buf).2.trace.length
        = 3 * total_steps K buf + 1 ∧
      ∀ i, i < total_steps K buf →
        (driver_write K { pwm_steps := s0, trace := [] } buf).2.trace[3 * i + 1]? =
          some (Call.pwm_set_relative_duty_cycle (rampValue (total_steps K buf) i)
            (total_steps K buf - 1)) ∧
        (driver_write K { pwm_steps := s0, trace := [] } buf).2.trace[3 * i + 2]? =
          some (Call.pwm_apply_state (relState K PWM_PERIOD
            (rampValue (total_steps K buf) i) (total_steps K buf - 1))) ∧
        (driver_write K { pwm_steps := s0, trace := [] } buf).2.trace[3 * i + 3]? =
          some (Call.udelay 10)) := by
  refine ⟨rfl, (delayCount_eq_acceptedApplies K s0 buf).1,
    (delayCount_eq_acceptedApplies K s0 buf).2, ?_⟩
  intro hp hok
  rw [driver_write_all_ok K s0 buf hp hok]
  refine ⟨?_, ?_, ?_, ?_⟩
  · simp only [delayCount, delayCount_okCalls]
  · simp only [delayTotal, delayTotal_okCalls]
    rfl
  · simp only [List.length_cons, length_okCalls]
  · intro i hi
    have h := okCalls_getElem K (total_steps K buf) (total_steps K buf) 0 i hi
    rw [Nat.zero_add] at h
    simp only [List.getElem?_cons_succ]
    exact h

/-- Witness of C15: the text "10" with every apply accepted gives 1000 delays,
10000 microseconds in all; the apply of step 499 is call 1499 of the write
and call 1500 is `udelay(10)`. -/
theorem driver_write_delays_witness :
    delayCount (driver_write (linuxKernel bootState hwAccept)
      { pwm_steps := 0, trace := [] } ['1', '0']).2.trace = 1000 ∧
    delayTotal (driver_write (linuxKernel bootState hwAccept)
      { pwm_steps := 0, trace := [] } ['1', '0']).2.trace = 1000 * 10 ∧
    (driver_write (linuxKernel bootState hwAccept)
      { pwm_steps := 0, trace := [] } ['1', '0']).2.trace[3 * 499 + 2]? =
        some (Call.pwm_apply_state
          { period := 1000000, duty_cycle := 499499, polarity := false, enabled := true }) ∧
    (driver_write (linuxKernel bootState hwAccept)
      { pwm_steps := 0, trace := [] } ['1', '0']).2.trace[3 * 499 + 3]? =
        some (Call.udelay 10) :=
  have h := (driver_write_delays (linuxKernel bootState hwAccept) 0 ['1', '0']).2.2.2
    (by decide) (fun _ _ => rfl)
  ⟨h.1, h.2.1, (h.2.2.2 499 (by decide)).2.1, (h.2.2.2 499 (by decide)).2.2⟩

/-- With a step count that is a multiple of 4, every numerator of the ramp is
at most `steps / 2 - 1`, so that twice it stays below `steps - 1`. -/
theorem rampValue_lt_half (steps i : Nat) (h4 : steps % 4 = 0) (hi : i < steps) :
    rampValue steps i ≤ steps / 2 - 1 ∧ 2 * rampValue steps i < steps - 1 := by
  unfold rampValue
  split <;> omega

/-- The numerator and denominator pairs of a write, in either of its three
courses. -/
theorem dutyCalls_driver_write_any (K : Kernel) (s0 : Nat) (buf : List Char) :
    ∃ n, n ≤ total_steps K buf ∧
      dutyCalls (driver_write K { pwm_steps := s0, trace := [] } buf).2.trace =
        (List.range n).map
          (fun j => (rampValue (total_steps K buf) j, total_steps K buf - 1)) ∧
      (0 < n → (driver_write K { pwm_steps := s0, trace := [] } buf).2.pwm_steps
        = total_steps K buf) := by
  rcases driver_write_cases K s0 buf with ⟨_, heq⟩ | ⟨_, _, heq⟩ | ⟨_, k, hk, _, _, heq⟩
  · refine ⟨0, Nat.zero_le _, ?_, fun h => absurd h (Nat.lt_irrefl 0)⟩
    rw [heq]
    rfl
  · refine ⟨total_steps K buf, le_refl _, ?_, fun _ => by rw [heq]⟩
    rw [heq]
    simp only [dutyCalls, dutyCalls_okCalls_zero]
  · refine ⟨k + 1, by omega, ?_, fun _ => by rw [heq]⟩
    rw [heq]
    simp only [dutyCalls, dutyCalls_refused]

/-- Rounding to the closest integer, as `pwm_set_relative_duty_cycle` does, takes
a ratio below one half to at most half of `PWM_PERIOD`. -/
theorem rounded_duty_le_half (d s : Nat) (h : 2 * d < s) :
    2 * ((d * PWM_PERIOD + s / 2) / s) ≤ PWM_PERIOD := by
  unfold PWM_PERIOD
  have hq : (d * 1000000 + s / 2) / s * s ≤ d * 1000000 + s / 2 := Nat.div_mul_le_self _ _
  by_contra hc
  have h1 : 1000001 ≤ 2 * ((d * 1000000 + s / 2) / s) := by omega
  have h2 : 1000001 * s ≤ 2 * ((d * 1000000 + s / 2) / s) * s := Nat.mul_le_mul_right s h1
  rw [Nat.mul_assoc] at h2
  generalize (d * 1000000 + s / 2) / s * s = m at hq h2
  omega

/-- Every state a write hands to `pwm_apply_state` is the one built for the
numerator of some step below the step count. -/
theorem appliedStates_driver_write_step (K : Kernel) (s0 : Nat) (buf : List Char)
    (st : pwm_state)
    (h : st ∈ appliedStates (driver_write K { pwm_steps := s0, trace := [] } buf).2.trace) :
    ∃ j, j < total_steps K buf ∧
      st = relState K PWM_PERIOD (rampValue (total_steps K buf) j) (total_steps K buf - 1) := by
  rcases driver_write_cases K s0 buf with ⟨_, heq⟩ | ⟨_, _, heq⟩ | ⟨_, k, hk, _, _, heq⟩
  · rw [heq] at h
    simp [appliedStates] at h
  · rw [heq] at h
    simp only [appliedStates, appliedStates_okCalls, List.mem_map, List.mem_range'_1] at h
    obtain ⟨j, hj, hjeq⟩ := h
    exact ⟨j, by omega, hjeq.symm⟩
  · rw [heq] at h
    simp only [appliedStates, appliedStates_append, appliedStates_okCalls,
      appliedStates_attemptCalls, List.mem_append, List.mem_map, List.mem_singleton,
      List.mem_range'_1] at h
    rcases h with ⟨j, hj, hjeq⟩ | h
    · exact ⟨j, by omega, hjeq.symm⟩
    · exact ⟨k, hk, h⟩

/-- In a write whose text is accepted and whose applies are all accepted, the
kernel calls number `3 * i + 1` and `3 * i + 2` are the duty-cycle computation
and the hardware apply of step `i`. -/
theorem driver_write_step_calls (K : Kernel) (s0 : Nat) (buf : List Char)
    (hp : 0 ≤ (K.kstrtou32_from_user buf 10).1)
    (hok : ∀ j, j < total_steps K buf → K.pwm_apply_state j = 0)
    (i : Nat) (hi : i < total_steps K buf) :
    (driver_write K { pwm_steps := s0, trace := [] } buf).2.trace[3 * i + 1]? =
      some (Call.pwm_set_relative_duty_cycle (rampValue (total_steps K buf) i)
        (total_steps K buf - 1)) ∧
    (driver_write K { pwm_steps := s0, trace := [] } buf).2.trace[3 * i + 2]? =
      some (Call.pwm_apply_state (relState K PWM_PERIOD
        (rampValue (total_steps K buf) i) (total_steps K buf - 1))) := by
  rw [driver_write_all_ok K s0 buf hp hok]
  have h := okCalls_getElem K (total_steps K buf) (total_steps K buf) 0 i hi
  rw [Nat.zero_add] at h
  simp only [List.getElem?_cons_succ]
  exact ⟨h.1, h.2.1⟩

/-- C16, refuted as stated: the text "10001" gives 1000100 steps; at step 500049
the pair (500049, 1000099) is applied, twice the numerator being below the
denominator, and the state handed to `pwm_apply_state` has the duty cycle
500000 ns, which is 50% of the period `PWM_PERIOD`. -/
theorem driver_write_half_period_example :
    total_steps (linuxKernel bootState hwAccept) ['1', '0', '0', '0', '1'] = 1000100 ∧
    ((driver_write (linuxKernel bootState hwAccept) { pwm_steps := 0, trace := [] }
        ['1', '0', '0', '0', '1']).2.trace[3 * 500049 + 1]? =
      some (Call.pwm_set_relative_duty_cycle 500049 1000099) ∧
     (driver_write (linuxKernel bootState hwAccept) { pwm_steps := 0, trace := [] }
        ['1', '0', '0', '0', '1']).2.trace[3 * 500049 + 2]? =
      some (Call.pwm_apply_state
        { period := 1000000, duty_cycle := 500000, polarity := false, enabled := true })) ∧
    2 * 500049 < 1000099 ∧
    2 * 500000 = PWM_PERIOD :=
  ⟨by decide,
   driver_write_step_calls (linuxKernel bootState hwAccept) 0 ['1', '0', '0', '0', '1']
     (by decide) (fun _ _ => rfl) 500049 (by decide),
   by decide, by decide⟩

/-- C16, amended: whatever the text, the earlier step count and the hardware
answers, every numerator `d` a write applies over the denominator
`s = pwm_steps - 1` satisfies `2 * d < s` and `d ≤ pwm_steps / 2 - 1`; in a write
whose text is accepted, whose applies are all accepted and whose step count
is not zero, the numerator `pwm_steps / 2 - 1` is applied; and the duty cycle
in nanoseconds of every state handed to `pwm_apply_state` is at most 50% of the
period `PWM_PERIOD` (it can be equal to it). -/
theorem driver_write_below_half (K : Kernel) (s0 : Nat) (buf : List Char) :
    (∀ d s, (d, s) ∈ dutyCalls (driver_write K { pwm_steps := s0, trace := [] } buf).2.trace →
      s = (driver_write K { pwm_steps := s0, trace := [] } buf).2.pwm_steps - 1 ∧
      2 * d < s ∧
      d ≤ (driver_write K { pwm_steps := s0, trace := [] } buf).2.pwm_steps / 2 - 1) ∧
    (0 ≤ (K.kstrtou32_from_user buf 10).1 →
      (∀ j, j < total_steps K buf → K.pwm_apply_state j = 0) →
      0 < total_steps K buf →
      (total_steps K buf / 2 - 1, total_steps K buf - 1) ∈
        dutyCalls (driver_write K { pwm_steps := s0, trace := [] } buf).2.trace) ∧
    (∀ st, st ∈ appliedStates (driver_write K { pwm_steps := s0, trace := [] } buf).2.trace →
      st.period = PWM_PERIOD ∧ 2 * st.duty_cycle ≤ st.period) := by
  have h4 := total_steps_mod_four K buf
  refine ⟨?_, ?_, ?_⟩
  · intro d s hmem
    obtain ⟨n, hn, htr, hsteps⟩ := dutyCalls_driver_write_any K s0 buf
    rw [htr] at hmem
    obtain ⟨j, hj, hjeq⟩ := List.mem_map.mp hmem
    have hjn := List.mem_range.mp hj
    rw [hsteps (by omega)]
    have hd : d = rampValue (total_steps K buf) j := (congrArg Prod.fst hjeq).symm
    have hs : s = total_steps K buf - 1 := (congrArg Prod.snd hjeq).symm
    have hb := rampValue_lt_half (total_steps K buf) j h4 (by omega)
    refine ⟨hs, ?_, ?_⟩
    · rw [hs, hd]; exact hb.2
    · rw [hd]; exact hb.1
  · intro hp hok hpos
    rw [driver_write_all_ok K s0 buf hp hok]
    simp only [dutyCalls, dutyCalls_okCalls_zero, List.mem_map, List.mem_range]
    refine ⟨total_steps K buf / 2 - 1, by omega, ?_⟩
    have hr : rampValue (total_steps K buf) (total_steps K buf / 2 - 1)
        = total_steps K buf / 2 - 1 := by
      unfold rampValue
      split
      · rfl
      · omega
    rw [hr]
  · intro st hst
    obtain ⟨j, hj, hjeq⟩ := appliedStates_driver_write_step K s0 buf st hst
    have hb := rampValue_lt_half (total_steps K buf) j h4 hj
    subst hjeq
    refine ⟨rfl, ?_⟩
    simp only [relState]
    exact rounded_duty_le_half _ _ hb.2

/-- Witness of C16, amended: the text "42949673" makes the step count wrap to 4;
the pair (1, 3) is applied, twice 1 is below 3, 1 is the largest numerator
`4 / 2 - 1`, and the state applied for it has the duty cycle 333333 ns, at
most half of the period. -/
theorem driver_write_below_half_witness :
    ((1, 3) ∈ dutyCalls (driver_write (linuxKernel bootState hwAccept)
      { pwm_steps := 0, trace := [] } ['4', '2', '9', '4', '9', '6', '7', '3']).2.trace ∧
      2 * 1 < 3) ∧
    (4 / 2 - 1, 4 - 1) ∈ dutyCalls (driver_write (linuxKernel bootState hwAccept)
      { pwm_steps := 0, trace := [] } ['4', '2', '9', '4', '9', '6', '7', '3']).2.trace ∧
    (({ period := 1000000, duty_cycle := 333333, polarity := false, enabled := true } :
        pwm_state) ∈
      appliedStates (driver_write (linuxKernel bootState hwAccept)
        { pwm_steps := 0, trace := [] } ['4', '2', '9', '4', '9', '6', '7', '3']).2.trace ∧
      2 * 333333 ≤ 1000000) :=
  ⟨⟨by decide,
    ((driver_write_below_half (linuxKernel bootState hwAccept) 0
      ['4', '2', '9', '4', '9', '6', '7', '3']).1 1 3 (by decide)).2.1⟩,
   (driver_write_below_half (linuxKernel bootState hwAccept) 0
      ['4', '2', '9', '4', '9', '6', '7', '3']).2.1 (by decide) (fun _ _ => rfl) (by decide),
   by decide,
   ((driver_write_below_half (linuxKernel bootState hwAccept) 0
      ['4', '2', '9', '4', '9', '6', '7', '3']).2.2
      { period := 1000000, duty_cycle := 333333, polarity := false, enabled := true }
      (by decide)).2⟩

/-- C17, refuted as stated: with the text "1" (not a multiple of `2 ^ 30`, step
count 100) and hardware refusing the first apply, the write performs one
step only, not four, and returns -1. -/
theorem driver_write_one_step_example :
    0 ≤ ((linuxKernel bootState (hwRefuseAt 0)).kstrtou32_from_user ['1'] 10).1 ∧
    ((linuxKernel bootState (hwRefuseAt 0)).kstrtou32_from_user ['1'] 10).2 = 1 ∧
    1 % 2 ^ 30 ≠ 0 ∧
    total_steps (linuxKernel bootState (hwRefuseAt 0)) ['1'] = 100 ∧
    (dutyCalls (driver_write (linuxKernel bootState (hwRefuseAt 0))
      { pwm_steps := 0, trace := [] } ['1']).2.trace).length = 1 ∧
    applyCount (driver_write (linuxKernel bootState (hwRefuseAt 0))
      { pwm_steps := 0, trace := [] } ['1']).2.trace = 1 ∧
    ¬ 4 ≤ (dutyCalls (driver_write (linuxKernel bootState (hwRefuseAt 0))
      { pwm_steps := 0, trace := [] } ['1']).2.trace).length ∧
    (driver_write (linuxKernel bootState (hwRefuseAt 0))
      { pwm_steps := 0, trace := [] } ['1']).1 = -1 := by
  decide

/-- C17, amended: for a text accepted with a 32-bit value `v`, the write makes
no hardware apply exactly when `v` is a multiple of `2 ^ 30`, that is one of
0, 1073741824, 2147483648 and 3221225472, and then it returns `count` without
any kernel call but its message; for every other `v` the step count is at
least 4, at least one hardware apply is made, and at least 4 steps are
performed when the first three applies are accepted. -/
theorem driver_write_zero_steps_iff (K : Kernel) (s0 : Nat) (buf : List Char)
    (hp : 0 ≤ (K.kstrtou32_from_user buf 10).1)
    (hv : (K.kstrtou32_from_user buf 10).2 < U32_MOD) :
    (applyCount (driver_write K { pwm_steps := s0, trace := [] } buf).2.trace = 0 ↔
      (K.kstrtou32_from_user buf 10).2 % 2 ^ 30 = 0) ∧
    ((K.kstrtou32_from_user buf 10).2 % 2 ^ 30 = 0 ↔
      (K.kstrtou32_from_user buf 10).2 = 0 ∨ (K.kstrtou32_from_user buf 10).2 = 1073741824 ∨
      (K.kstrtou32_from_user buf 10).2 = 2147483648 ∨
      (K.kstrtou32_from_user buf 10).2 = 3221225472) ∧
    (total_steps K buf = (K.kstrtou32_from_user buf 10).2 * 100 % 2 ^ 32) ∧
    ((K.kstrtou32_from_user buf 10).2 % 2 ^ 30 = 0 →
      (driver_write K { pwm_steps := s0, trace := [] } buf).1 = (buf.length : Int) ∧
      dutyCalls (driver_write K { pwm_steps := s0, trace := [] } buf).2.trace = [] ∧
      delayCount (driver_write K { pwm_steps := s0, trace := [] } buf).2.trace = 0) ∧
    ((K.kstrtou32_from_user buf 10).2 % 2 ^ 30 ≠ 0 →
      4 ≤ total_steps K buf ∧
      1 ≤ applyCount (driver_write K { pwm_steps := s0, trace := [] } buf).2.trace ∧
      ((∀ j, j < 3 → K.pwm_apply_state j = 0) →
        4 ≤ (dutyCalls (driver_write K { pwm_steps := s0, trace := [] } buf).2.trace).length ∧
        4 ≤ applyCount (driver_write K { pwm_steps := s0, trace := [] } buf).2.trace)) := by
  have hts : total_steps K buf = (K.kstrtou32_from_user buf 10).2 * 100 % 2 ^ 32 := by
    simp only [total_steps, steps_comp_pwm_steps, Nat.mod_eq_of_lt hv]
    rfl
  have hzero : total_steps K buf = 0 ↔ (K.kstrtou32_from_user buf 10).2 % 2 ^ 30 = 0 := by
    rw [hts]
    norm_num
    omega
  have h4 := total_steps_mod_four K buf
  have hcount : applyCount (driver_write K { pwm_steps := s0, trace := [] } buf).2.trace = 0 ↔
      total_steps K buf = 0 := by
    rcases driver_write_cases K s0 buf with
      ⟨hneg, _⟩ | ⟨_, _, heq⟩ | ⟨_, k, hk, _, _, heq⟩
    · omega
    · rw [heq]
      simp only [applyCount, applyCount_okCalls]
    · rw [heq]
      simp only [applyCount, applyCount_append, applyCount_okCalls, attemptCalls]
      omega
  refine ⟨hcount.trans hzero, ?_, hts, ?_, ?_⟩
  · unfold U32_MOD at hv
    norm_num
    omega
  · intro hmul
    have h0 : total_steps K buf = 0 := hzero.mpr hmul
    rw [driver_write_all_ok K s0 buf hp (by intro j hj; omega), h0]
    simp [okCalls, dutyCalls, delayCount]
  · intro hne
    have hpos : total_steps K buf ≠ 0 := fun h => hne (hzero.mp h)
    refine ⟨by omega, ?_, ?_⟩
    · have := hcount.not.mpr hpos
      omega
    · intro h3
      obtain ⟨n, hn, hall, hlt, htr⟩ := dutyCalls_driver_write K s0 buf hp
      have hn4 : 3 < n := hlt 3 h3 (by omega)
      constructor
      · rw [htr, List.length_map, List.length_range]
        omega
      · rcases driver_write_cases K s0 buf with
          ⟨hneg, _⟩ | ⟨_, _, heq⟩ | ⟨_, k, hk, hok, hbad, heq⟩
        · omega
        · rw [heq]
          simp only [applyCount, applyCount_okCalls]
          omega
        · rw [heq]
          simp only [applyCount, applyCount_append, applyCount_okCalls, attemptCalls]
          have : ¬ k < 3 := fun hk3 => hbad (h3 k hk3)
          omega

/-- Witness of C17, amended: the text "1073741824" gives no hardware apply and
returns 10; the text "1" gives 100 steps, of which at least 4 are performed
when every apply is accepted. -/
theorem driver_write_zero_steps_iff_witness :
    applyCount (driver_write (linuxKernel bootState hwAccept) { pwm_steps := 7, trace := [] }
      ['1', '0', '7', '3', '7', '4', '1', '8', '2', '4']).2.trace = 0 ∧
    (driver_write (linuxKernel bootState hwAccept) { pwm_steps := 7, trace := [] }
      ['1', '0', '7', '3', '7', '4', '1', '8', '2', '4']).1 = 10 ∧
    4 ≤ total_steps (linuxKernel bootState hwAccept) ['1'] ∧
    4 ≤ (dutyCalls (driver_write (linuxKernel bootState hwAccept)
      { pwm_steps := 7, trace := [] } ['1']).2.trace).length :=
  have h0 := driver_write_zero_steps_iff (linuxKernel bootState hwAccept) 7
    ['1', '0', '7', '3', '7', '4', '1', '8', '2', '4'] (by decide) (by decide)
  have h1 := driver_write_zero_steps_iff (linuxKernel bootState hwAccept) 7 ['1']
    (by decide) (by decide)
  ⟨h0.1.mpr (by decide), (h0.2.2.2.1 (by decide)).1,
   (h1.2.2.2.2 (by decide)).1, ((h1.2.2.2.2 (by decide)).2.2 (fun _ _ => rfl)).1⟩

end PulsePwm

/-! ## The fixed-step PWM driver -/

namespace FixedPwm

/-- For a first byte `c` in the range 'a'..'j' that `copy_from_user` delivers,
the write calls `pwm_config` once, with on time `100000000 * (c - 'a')` against
the period 1000000000, and returns 1. -/
theorem fixed_driver_write_on_time (stale : Nat) (c : Char) (rest : List Char)
    (hlo : 'a'.toNat ≤ c.toNat) (hhi : c.toNat ≤ 'j'.toNat) :
    driver_write 0 stale (c :: rest) =
      (1, [Call.copy_from_user 1,
        Call.pwm_config (100000000 * (c.toNat - 'a'.toNat)) 1000000000]) := by
  have hcond : ¬ (c.toNat < 'a'.toNat ∨ c.toNat > 'j'.toNat) := by omega
  have hmin : min (rest.length + 1) 1 = 1 := by omega
  simp only [driver_write, List.length_cons, hmin, Nat.sub_zero, List.take_succ_cons,
    hcond, if_false, List.singleton_append]
  rfl

/-- The on time grows by 100000000 from one letter to the next, from 0 for 'a'
to 900000000 for 'j'. -/
theorem fixed_driver_write_on_time_range (c : Char)
    (hlo : 'a'.toNat ≤ c.toNat) (hhi : c.toNat ≤ 'j'.toNat) :
    100000000 * (c.toNat - 'a'.toNat) ≤ 900000000 ∧
    100000000 * (c.toNat + 1 - 'a'.toNat) = 100000000 * (c.toNat - 'a'.toNat) + 100000000 := by
  have ha : 'a'.toNat = 97 := by decide
  have hj : 'j'.toNat = 106 := by decide
  rw [ha] at hlo ⊢
  rw [hj] at hhi
  omega

/-- C13, at the input that breaks it: for the letter 'a' the write configures
an on time of 0 ns, not 100000000 ns, against the period 1000000000 ns; for
'b' it is 100000000 ns and for 'j' it is 900000000 ns. -/
theorem fixed_driver_write_letter_a :
    driver_write 0 0 ['a'] = (1, [Call.copy_from_user 1, Call.pwm_config 0 1000000000]) ∧
    configured (driver_write 0 0 ['a']).2 = [(0, 1000000000)] ∧
    (100000000, 1000000000) ∉ configured (driver_write 0 0 ['a']).2 ∧
    configured (driver_write 0 0 ['b']).2 = [(100000000, 1000000000)] ∧
    configured (driver_write 0 0 ['j']).2 = [(100000000 * 9, 1000000000)] := by
  decide

end FixedPwm

/-! ## The read/write character device -/

namespace ReadWrite

theorem copyStores_index (l : List Char) :
    ∀ (i : Nat) (p : Int × Nat), p ∈ copyStores i l →
      (i : Int) ≤ p.1 ∧ p.1 < (i : Int) + (l.length : Int) := by
  induction l with
  | nil => intro i p h; simp [copyStores] at h
  | cons c cs ih =>
    intro i p h
    simp only [copyStores, List.mem_cons] at h
    rcases h with h | h
    · subst h
      simp only [List.length_cons]
      omega
    · have := ih (i + 1) p h
      simp only [List.length_cons]
      omega

/-- The bytes taken from the user land below `delta`, hence inside the
buffer; the terminating NUL lands at `delta`, which is at most
`BUFFER_LENGTH`. -/
theorem read_write_stores_index (not_copied : Nat) (buf : List Char)
    (hnc : not_copied ≤ min buf.length BUFFER_LENGTH) :
    (driver_write not_copied buf).stores =
      copyStores 0 (buf.take (min buf.length BUFFER_LENGTH - not_copied)) ++
        [(((min buf.length BUFFER_LENGTH - not_copied : Nat) : Int), 0)] ∧
    (∀ p, p ∈ copyStores 0 (buf.take (min buf.length BUFFER_LENGTH - not_copied)) →
      0 ≤ p.1 ∧ p.1 < (BUFFER_LENGTH : Int)) ∧
    min buf.length BUFFER_LENGTH - not_copied ≤ BUFFER_LENGTH := by
  refine ⟨?_, ?_, ?_⟩
  · simp only [driver_write]
    rw [Nat.cast_sub hnc]
  · intro p hp
    have h := copyStores_index _ 0 p hp
    simp only [List.length_take] at h
    have hle : min (min buf.length BUFFER_LENGTH - not_copied) buf.length ≤ BUFFER_LENGTH := by
      omega
    omega
  · omega

/-- A write keeps all its stores inside the buffer exactly when fewer than
`BUFFER_LENGTH` bytes are stored, that is when `count < BUFFER_LENGTH` or
`copy_from_user` left some byte out. -/
theorem read_write_in_bounds_iff (not_copied : Nat) (buf : List Char)
    (hnc : not_copied ≤ min buf.length BUFFER_LENGTH) :
    storesInBounds (driver_write not_copied buf) = true ↔
      buf.length < BUFFER_LENGTH ∨ 0 < not_copied := by
  obtain ⟨hst, hcp, _⟩ := read_write_stores_index not_copied buf hnc
  unfold storesInBounds
  rw [hst, List.all_append]
  have hall : (copyStores 0 (buf.take (min buf.length BUFFER_LENGTH - not_copied))).all
      (fun p => decide (0 ≤ p.1 ∧ p.1 < (BUFFER_LENGTH : Int))) = true := by
    rw [List.all_eq_true]
    intro p hp
    simpa using hcp p hp
  rw [hall]
  simp only [Bool.true_and, List.all_cons, List.all_nil, Bool.and_true, decide_eq_true_eq]
  unfold BUFFER_LENGTH at *
  omega

/-- C14, at the input that breaks it: a write of 1024 bytes that
`copy_from_user` copies in full stores its terminating NUL at index 1024, which
is `BUFFER_LENGTH`, one past the last element of `cust_dev_buffer`; the write
returns 1024. -/
theorem read_write_nul_past_end :
    (driver_write 0 (List.replicate 1024 'A')).stores.getLast? = some (1024, 0) ∧
    ¬ ((1024 : Int) < (BUFFER_LENGTH : Int)) ∧
    storesInBounds (driver_write 0 (List.replicate 1024 'A')) = false ∧
    (driver_write 0 (List.replicate 1024 'A')).ret = 1024 := by
  have hlen : (List.replicate 1024 'A').length = 1024 := List.length_replicate _ _
  have hnc : 0 ≤ min (List.replicate 1024 'A').length BUFFER_LENGTH := Nat.zero_le _
  refine ⟨?_, by decide, ?_, ?_⟩
  · rw [(read_write_stores_index 0 _ hnc).1, List.getLast?_concat, hlen]
    rfl
  · have h := read_write_in_bounds_iff 0 (List.replicate 1024 'A') hnc
    rw [hlen] at h
    have hno : ¬ (1024 < BUFFER_LENGTH ∨ 0 < 0) := by decide
    cases hb : storesInBounds (driver_write 0 (List.replicate 1024 'A')) with
    | false => rfl
    | true => exact absurd (h.mp hb) hno
  · simp only [driver_write, hlen]
    rfl

end ReadWrite
